import Mathlib

/-!
# git-fame-light: per-author commit statistics

A shallow embedding of `main.go` and proofs about its aggregation pass, its
ranking, its row rendering and its period parsing.

Modelling conventions.

* A Go `string` holding text is a Lean `String` (a sequence of Unicode code
  points, i.e. valid UTF-8). Where the source works on the bytes of a string
  (`len`, slicing) the model goes through the UTF-8 encoding `utf8Bytes`.
  Go compares strings bytewise; on valid UTF-8 that is the lexicographic order
  on code points, which is the order of `String`.
* Go `int` is 64 bits wide; line and commit counts stay far below `2^63`, so
  the counters are modelled on `Int` without wrap-around.
* `map[string]*agg` is an association list with unique keys; the iteration
  order of a Go map is unspecified, so whatever is built by ranging over the
  map is quantified over all orders.
* The non-ASCII part of Go's Unicode tables (`unicode.ToLower`,
  `unicode.IsPrint`) is not part of the repository and is taken as a
  parameter.
-/

namespace GitFame

/-! ## Strings (package `strings`) -/

/-- Go's `unicode.IsSpace`: the Unicode White_Space property. -/
def isSpace (c : Char) : Bool :=
  let n := c.toNat
  (0x09 ≤ n && n ≤ 0x0D) || n == 0x20 || n == 0x85 || n == 0xA0 || n == 0x1680 ||
  (0x2000 ≤ n && n ≤ 0x200A) || n == 0x2028 || n == 0x2029 || n == 0x202F ||
  n == 0x205F || n == 0x3000

/-- Go's `strings.TrimSpace`: leading and trailing white space removed. -/
def trimSpace (s : String) : String :=
  ⟨((s.data.dropWhile isSpace).reverse.dropWhile isSpace).reverse⟩

/-- Go's `unicode.ToLower` on one rune: `A`..`Z` are shifted for ASCII, any
other rune goes through the Unicode case table `tbl`. -/
def toLowerRune (tbl : Char → Char) (c : Char) : Char :=
  if c.toNat < 0x80 then
    (if 0x41 ≤ c.toNat ∧ c.toNat ≤ 0x5A then Char.ofNat (c.toNat + 0x20) else c)
  else tbl c

/-- Go's `strings.ToLower`. -/
def toLower (tbl : Char → Char) (s : String) : String :=
  ⟨s.data.map (toLowerRune tbl)⟩

/-- Substring test on character lists. -/
def containsList : List Char → List Char → Bool
  | [], sub => sub.isEmpty
  | c :: t, sub => sub.isPrefixOf (c :: t) || containsList t sub

/-- Go's `strings.Contains`. -/
def contains (s substr : String) : Bool :=
  containsList s.data substr.data

/-! ## Data model -/

/-- The per-author aggregate of `main.go`. -/
structure agg where
  AuthorName : String
  AuthorEmail : String
  Commits : Int
  Added : Int
  Deleted : Int
  deriving DecidableEq, Repr

/-- The method `Net` of `agg`. -/
def agg.Net (a : agg) : Int := a.Added - a.Deleted

/-- The signature of a commit (`object.Signature`), name and email only. -/
structure Signature where
  Name : String
  Email : String
  deriving DecidableEq, Repr

/-- One entry of `object.FileStats`. -/
structure FileStat where
  Addition : Int
  Deletion : Int
  deriving DecidableEq, Repr

/-- What `main` reads of an `object.Commit`: the author, the number of
parents, and the result of `c.Stats()` (`none` when it returns an error). -/
structure Commit where
  Author : Signature
  NumParents : Nat
  Stats : Option (List FileStat)
  deriving DecidableEq, Repr

/-- The flags that steer the aggregation pass. -/
structure Config where
  authorFilter : String
  includeMerges : Bool
  deriving DecidableEq, Repr

/-- The map `byAuthor`: keys are unique, new keys are appended. -/
abbrev AuthorMap := List (String × agg)

/-- The lookup `byAuthor[key]`. -/
def mapGet : AuthorMap → String → Option agg
  | [], _ => none
  | (k, v) :: m, key => if k = key then some v else mapGet m key

/-- The record stored under `key` is replaced by `f` of it. -/
def mapUpdate : AuthorMap → String → (agg → agg) → AuthorMap
  | [], _, _ => []
  | (k, v) :: m, key, f => if k = key then (k, f v) :: m else (k, v) :: mapUpdate m key f

/-- The variables the callback of `iter.ForEach` closes over. -/
structure AggState where
  byAuthor : AuthorMap
  totalCommits : Int
  totalAdded : Int
  totalDeleted : Int
  deriving DecidableEq, Repr

/-- The state before the traversal. -/
def AggState.init : AggState := ⟨[], 0, 0, 0⟩

/-! ## The aggregation pass -/

/-- The loop `for _, s := range stats` of the callback. -/
def sumStats (stats : List FileStat) : Int × Int :=
  stats.foldl (fun acc s => (acc.1 + s.Addition, acc.2 + s.Deletion)) (0, 0)

/-- The identity key of a commit (lines 105-111). -/
def identityKey (tbl : Char → Char) (c : Commit) : String :=
  let key := toLower tbl (trimSpace c.Author.Email)
  let key := if key = "" then toLower tbl (trimSpace c.Author.Name) else key
  if key = "" then "(unknown)" else key

/-- Lines 113-124: the commit is added to its author's record and to the
totals. -/
def record (tbl : Char → Char) (st : AggState) (c : Commit) (added deleted : Int) : AggState :=
  let key := identityKey tbl c
  let byAuthor :=
    match mapGet st.byAuthor key with
    | some _ => st.byAuthor
    | none => st.byAuthor ++ [(key, ⟨c.Author.Name, c.Author.Email, 0, 0, 0⟩)]
  let byAuthor := mapUpdate byAuthor key
    (fun r => { r with Commits := r.Commits + 1, Added := r.Added + added,
                       Deleted := r.Deleted + deleted })
  ⟨byAuthor, st.totalCommits + 1, st.totalAdded + added, st.totalDeleted + deleted⟩

/-- The callback handed to `iter.ForEach` (lines 77-126). -/
def forEachBody (tbl : Char → Char) (cfg : Config) (st : AggState) (c : Commit) : AggState :=
  if cfg.authorFilter ≠ "" ∧
      (let needle := toLower tbl cfg.authorFilter
       !contains (toLower tbl c.Author.Name) needle &&
       !contains (toLower tbl c.Author.Email) needle) = true then st
  else if !cfg.includeMerges && decide (c.NumParents > 1) then st
  else
    match c.Stats with
    | none => st
    | some stats =>
      let (added, deleted) := sumStats stats
      record tbl st c added deleted

/-- The whole traversal `iter.ForEach` over the commits the log yields. -/
def aggregate (tbl : Char → Char) (cfg : Config) (cs : List Commit) : AggState :=
  cs.foldl (forEachBody tbl cfg) AggState.init

/-- Whether the callback reaches line 99 for the commit: none of the three
early returns (author filter, merge exclusion, failed `Stats`) is taken. -/
def counted (tbl : Char → Char) (cfg : Config) (c : Commit) : Bool :=
  !(decide (cfg.authorFilter ≠ "") &&
      (!contains (toLower tbl c.Author.Name) (toLower tbl cfg.authorFilter) &&
       !contains (toLower tbl c.Author.Email) (toLower tbl cfg.authorFilter))) &&
  !(!cfg.includeMerges && decide (c.NumParents > 1)) &&
  c.Stats.isSome

/-- The lines a commit adds: the sum of `Addition` over its file statistics. -/
def commitAdded (c : Commit) : Int :=
  ((c.Stats.getD []).map FileStat.Addition).sum

/-- The lines a commit deletes: the sum of `Deletion` over its file statistics. -/
def commitDeleted (c : Commit) : Int :=
  ((c.Stats.getD []).map FileStat.Deletion).sum

/-- The commits of `cs` that are counted and carry the identity key `k`. -/
def countedWithKey (tbl : Char → Char) (cfg : Config) (cs : List Commit) (k : String) :
    List Commit :=
  (cs.filter (counted tbl cfg)).filter (fun c => decide (identityKey tbl c = k))

/-- The keys of the map, in insertion order. -/
def mapKeys (m : AuthorMap) : List String := m.map Prod.fst

/-- The records of the map, in insertion order. -/
def mapValues (m : AuthorMap) : List agg := m.map Prod.snd

/-- The record of a commit, as a function of the record already there. -/
def bump (c : Commit) (added deleted : Int) : Option agg → agg
  | none => ⟨c.Author.Name, c.Author.Email, 1, added, deleted⟩
  | some r => { r with Commits := r.Commits + 1, Added := r.Added + added,
                       Deleted := r.Deleted + deleted }

/-- The record an identity key is expected to have after the pass: name and
email of the first counted commit with that key, the number of such commits,
and the sums of their added and deleted lines. -/
def expectedRecord (tbl : Char → Char) (cfg : Config) (cs : List Commit) (k : String) :
    Option agg :=
  match countedWithKey tbl cfg cs k with
  | [] => none
  | c :: rest =>
    some ⟨c.Author.Name, c.Author.Email, ((c :: rest).length : Int),
      ((c :: rest).map commitAdded).sum, ((c :: rest).map commitDeleted).sum⟩


/-- The filter of the contract, in the words of the specification: the author
substring is empty or occurs in the lower-cased name or email, merges are
included or the commit has at most one parent, and the statistics of the
commit can be computed. -/
def passesFilters (tbl : Char → Char) (cfg : Config) (c : Commit) : Bool :=
  (decide (cfg.authorFilter = "") ||
    contains (toLower tbl c.Author.Name) (toLower tbl cfg.authorFilter) ||
    contains (toLower tbl c.Author.Email) (toLower tbl cfg.authorFilter)) &&
  (cfg.includeMerges || decide (c.NumParents ≤ 1)) &&
  c.Stats.isSome

/-- The configuration without any filtering: no author substring, merges
included. -/
def Config.unfiltered : Config := ⟨"", true⟩

/-! ## Ranking -/

/-- Lexicographic comparison of code point sequences. -/
def ltChars : List Char → List Char → Bool
  | _, [] => false
  | [], _ :: _ => true
  | a :: as, b :: bs => if a < b then true else if b < a then false else ltChars as bs

/-- Go's `<` on strings: bytewise lexicographic comparison, which on UTF-8 is
the lexicographic comparison of the code points. -/
def strLess (s t : String) : Bool := ltChars s.data t.data

/-- The comparator handed to `sort.Slice` (lines 136-144). -/
def less (tbl : Char → Char) (a b : agg) : Bool :=
  if a.Net ≠ b.Net then decide (a.Net > b.Net)
  else if a.Commits ≠ b.Commits then decide (a.Commits > b.Commits)
  else strLess (toLower tbl a.AuthorEmail) (toLower tbl b.AuthorEmail)

/-- The inner loop of insertion sort: `x` moves to the left past every element
it is less than. The sorted prefix is given back to front. -/
def insertLeft {α : Type} (lt : α → α → Bool) (x : α) : List α → List α
  | [] => [x]
  | y :: rev => if lt x y then y :: insertLeft lt x rev else x :: y :: rev

/-- A model of `sort.Slice`. Go sorts a slice of at most twelve elements by
this insertion sort and a longer one by pattern-defeating quicksort; the
library promises a sorted permutation and leaves the order of elements that
compare equal open (see `SortedBy`). -/
def sortSlice {α : Type} (lt : α → α → Bool) (l : List α) : List α :=
  (l.foldl (fun rev x => insertLeft lt x rev) []).reverse

/-- What `sort.Slice` promises of its result `out` for the input `l`: a
permutation of `l` in which no element is less than an earlier one. -/
def SortedBy {α : Type} (lt : α → α → Bool) (l out : List α) : Prop :=
  out.Perm l ∧ out.Pairwise (fun a b => lt b a = false)

/-- The list `main` ranks (lines 132-144): the records of the map, collected in
the order `order` in which the map is iterated, then sorted. -/
def rank (tbl : Char → Char) (order : List agg) : List agg :=
  sortSlice (less tbl) order

/-- The order of the ranked list in the words of the contract: higher net
first, then more commits first, then the lower-cased email ascending. -/
def RankedBefore (tbl : Char → Char) (a b : agg) : Prop :=
  a.Net > b.Net ∨
  (a.Net = b.Net ∧ a.Commits > b.Commits) ∨
  (a.Net = b.Net ∧ a.Commits = b.Commits ∧
    toLower tbl a.AuthorEmail ≤ toLower tbl b.AuthorEmail)

/-! ## CSV export -/

/-- The decimal digits of a natural number, most significant first. -/
def fmtNat (n : Nat) : List Char :=
  if n = 0 then ['0'] else (Nat.digits 10 n).reverse.map (fun d => Char.ofNat (48 + d))

/-- Go's `fmt.Sprintf("%d", i)`. -/
def fmtInt (i : Int) : String :=
  if i < 0 then ⟨'-' :: fmtNat i.natAbs⟩ else ⟨fmtNat i.natAbs⟩

/-- The rows `writeCSV` hands to the CSV writer, in order: the header, one row
per ranked record, the totals. -/
def writeCSV (rows : List agg) (totalCommits totalAdded totalDeleted : Int) :
    List (List String) :=
  ["author_name", "author_email", "commits", "added", "deleted", "net"] ::
  (rows.map (fun a =>
      [a.AuthorName, a.AuthorEmail, fmtInt a.Commits, fmtInt a.Added,
       fmtInt a.Deleted, fmtInt a.Net]) ++
   [["TOTAL", "", fmtInt totalCommits, fmtInt totalAdded, fmtInt totalDeleted,
     fmtInt (totalAdded - totalDeleted)]])

/-- A reader of decimal digits, most significant first. -/
def parseNat (cs : List Char) : Option Nat :=
  if cs = [] then none
  else if cs.all Char.isDigit then some (Nat.ofDigits 10 (cs.reverse.map (fun c => c.toNat - 48)))
  else none

/-- A reader of a decimal integer field of the CSV file. -/
def parseInt (s : String) : Option Int :=
  match s.data with
  | '-' :: cs => (parseNat cs).bind (fun n => some (- (n : Int)))
  | cs => (parseNat cs).bind (fun n => some (n : Int))

/-- The sum of column `col` of the rows, read back from their text; `none`
when a row lacks the column or its field is not a decimal integer. -/
def resum : List (List String) → Nat → Option Int
  | [], _ => some 0
  | r :: rows, col =>
    match (r.get? col).bind parseInt, resum rows col with
    | some x, some s => some (x + s)
    | _, _ => none

/-- The rows of the CSV file between the header and the totals row. -/
def authorRows (csv : List (List String)) : List (List String) :=
  csv.tail.dropLast

/-! ## Row rendering -/

/-- The UTF-8 encoding of one code point (Go's `utf8.EncodeRune`), as byte
values. -/
def utf8EncodeRune (c : Char) : List Nat :=
  let n := c.toNat
  if n < 0x80 then [n]
  else if n < 0x800 then [0xC0 + n / 64, 0x80 + n % 64]
  else if n < 0x10000 then [0xE0 + n / 4096, 0x80 + n / 64 % 64, 0x80 + n % 64]
  else [0xF0 + n / 262144, 0x80 + n / 4096 % 64, 0x80 + n / 64 % 64, 0x80 + n % 64]

/-- The bytes of a Go string that holds the text `s`. -/
def utf8Bytes (s : String) : List Nat :=
  s.data.foldr (fun c acc => utf8EncodeRune c ++ acc) []

/-- Go's `utf8.Valid`, as a scan that remembers how many continuation bytes
are still due (`pending`) and the range `lo..hi` allowed for the next one. -/
def utf8Scan : Nat → Nat → Nat → List Nat → Bool
  | pending, _, _, [] => pending == 0
  | 0, _, _, b :: bs =>
    if b < 0x80 then utf8Scan 0 0 0 bs
    else if 0xC2 ≤ b && b ≤ 0xDF then utf8Scan 1 0x80 0xBF bs
    else if b == 0xE0 then utf8Scan 2 0xA0 0xBF bs
    else if b == 0xED then utf8Scan 2 0x80 0x9F bs
    else if 0xE1 ≤ b && b ≤ 0xEF then utf8Scan 2 0x80 0xBF bs
    else if b == 0xF0 then utf8Scan 3 0x90 0xBF bs
    else if b == 0xF4 then utf8Scan 3 0x80 0x8F bs
    else if 0xF1 ≤ b && b ≤ 0xF3 then utf8Scan 3 0x80 0xBF bs
    else false
  | pending + 1, lo, hi, b :: bs =>
    if lo ≤ b && b ≤ hi then utf8Scan pending 0x80 0xBF bs else false

/-- Whether the bytes are well-formed UTF-8. -/
def utf8Valid (bs : List Nat) : Bool := utf8Scan 0 0 0 bs

/-- The author column of a report row (lines 165-174), as the bytes handed to
`fmt.Printf`: `len(name)` is the number of bytes of `name` and `name[:25]` its
first 25 bytes. -/
def displayName (a : agg) : List Nat :=
  let name := a.AuthorName
  let name := if name = "" then a.AuthorEmail else name
  let name := if name = "" then "(unknown)" else name
  if (utf8Bytes name).length > 28 then (utf8Bytes name).take 25 ++ utf8Bytes "..."
  else utf8Bytes name

/-! ## Time (package `time`)

`main` hands `since` and `until` to the log as instants and prints them with
`In(loc)`, so a `time.Time` is modelled by its instant; the location a Go
value carries along only steers formatting. -/

/-- An instant: seconds since 1970-01-01T00:00:00Z and nanoseconds within the
second. -/
structure Time where
  sec : Int
  nsec : Int
  deriving DecidableEq, Repr

/-- A `time.Location`: the offset (seconds east of UTC) in force before the
first transition, and the transitions in ascending order, each with its
instant and the offset in force from then on. -/
structure Location where
  initial : Int
  tx : List (Int × Int)
  deriving DecidableEq, Repr

/-- The location `time.UTC`. -/
def UTC : Location := ⟨0, []⟩

/-- The lower sentinel of `lookup`. -/
def alpha : Int := -(2 ^ 63)

/-- The upper sentinel of `lookup`. -/
def omega : Int := 2 ^ 63 - 1

/-- The search of `lookup`: `offset` has been in force since `start`. -/
def lookupFrom (offset start : Int) : List (Int × Int) → Int → Int × Int × Int
  | [], _ => (offset, start, omega)
  | (w, o) :: rest, sec =>
    if sec < w then (offset, start, w) else lookupFrom o w rest sec

/-- The method `lookup` of a location: the offset in force at the instant `sec`
and the bounds `start ≤ sec < end` of the period in which it is in force. -/
def Location.lookup (l : Location) (sec : Int) : Int × Int × Int :=
  lookupFrom l.initial alpha l.tx sec

/-- Leap years of the Gregorian calendar. -/
def isLeap (year : Int) : Bool :=
  year % 4 == 0 && (year % 100 != 0 || year % 400 == 0)

/-- The table `daysBefore`: days of a non-leap year before month `m + 1`. -/
def daysBefore (m : Int) : Int :=
  match m with
  | 0 => 0 | 1 => 31 | 2 => 59 | 3 => 90 | 4 => 120 | 5 => 151 | 6 => 181
  | 7 => 212 | 8 => 243 | 9 => 273 | 10 => 304 | 11 => 334 | _ => 365

/-- Go's `daysIn`: the number of days of a month. -/
def daysIn (month year : Int) : Int :=
  if month = 2 ∧ isLeap year = true then 29
  else daysBefore month - daysBefore (month - 1)

/-- Days from 1970-01-01 to the first of January of `year`. -/
def daysSinceEpoch (year : Int) : Int :=
  365 * (year - 1) + (year - 1) / 4 - (year - 1) / 100 + (year - 1) / 400 - 719162

/-- Go's `time.Date`, as an instant: the fields are normalised, the civil time
is turned into seconds as if it were UTC, and the offset of the location is
looked up, first at that guess and then, if the guess falls outside the period
found, at the corrected instant. -/
def Date (year month day hour min sec nsec : Int) (loc : Location) : Time :=
  let m := month - 1
  let year := year + m / 12
  let m := m % 12
  let sec := sec + nsec / 1000000000
  let nsec := nsec % 1000000000
  let min := min + sec / 60
  let sec := sec % 60
  let hour := hour + min / 60
  let min := min % 60
  let day := day + hour / 24
  let hour := hour % 24
  let d := daysSinceEpoch year + daysBefore m +
    (if isLeap year = true ∧ m ≥ 2 then 1 else 0) + (day - 1)
  let unix := d * 86400 + hour * 3600 + min * 60 + sec
  let (offset, start, stop) := loc.lookup unix
  if offset ≠ 0 then
    let utc := unix - offset
    let offset := if utc < start ∨ utc ≥ stop then (loc.lookup utc).1 else offset
    ⟨unix - offset, nsec⟩
  else ⟨unix, nsec⟩

/-- The civil date of a day number (days since 1970-01-01). -/
def civilFromDays (z : Int) : Int × Int × Int :=
  let z := z + 719468
  let era := z / 146097
  let doe := z - era * 146097
  let yoe := (doe - doe / 1460 + doe / 36524 - doe / 146096) / 365
  let doy := doe - (365 * yoe + yoe / 4 - yoe / 100)
  let mp := (5 * doy + 2) / 153
  let d := doy - (153 * mp + 2) / 5 + 1
  let m := if mp < 10 then mp + 3 else mp - 9
  (if m ≤ 2 then yoe + era * 400 + 1 else yoe + era * 400, m, d)

/-- The calendar and clock reading of an instant in a location. -/
structure Civil where
  year : Int
  month : Int
  day : Int
  hour : Int
  min : Int
  sec : Int
  deriving DecidableEq, Repr

/-- What `t.In(loc)` shows: `Date()` and `Clock()` of the instant in `loc`. -/
def Time.civil (t : Time) (loc : Location) : Civil :=
  let abs := t.sec + (loc.lookup t.sec).1
  let (y, m, d) := civilFromDays (abs / 86400)
  let r := abs % 86400
  ⟨y, m, d, r / 3600, r % 3600 / 60, r % 60⟩

/-- Go's `Time.Add`, the duration in nanoseconds. -/
def Time.Add (t : Time) (d : Int) : Time :=
  ⟨t.sec + (t.nsec + d) / 1000000000, (t.nsec + d) % 1000000000⟩

/-- Go's `Time.AddDate`, read in the location `loc` of the time. -/
def Time.AddDate (t : Time) (loc : Location) (years months days : Int) : Time :=
  let c := t.civil loc
  Date (c.year + years) (c.month + months) (c.day + days) c.hour c.min c.sec t.nsec loc

/-! ### Parsing against a layout -/

/-- The elements of the four layouts `parseTimeFlexible` tries, named as in
Go's `time/format.go`; `lit` is layout text that stands for itself. -/
inductive Chunk where
  | stdLongYear
  | stdZeroMonth
  | stdZeroDay
  | stdHour
  | stdZeroMinute
  | stdZeroSecond
  | stdISO8601ColonTZ
  | stdNumTZ
  | stdWeekDay
  | stdMonth
  | lit (text : List Char)
  deriving DecidableEq, Repr

/-- The layout `time.RFC3339`, "2006-01-02T15:04:05Z07:00". -/
def RFC3339 : List Chunk :=
  [.stdLongYear, .lit ['-'], .stdZeroMonth, .lit ['-'], .stdZeroDay, .lit ['T'],
   .stdHour, .lit [':'], .stdZeroMinute, .lit [':'], .stdZeroSecond, .stdISO8601ColonTZ]

/-- The layout "2006-01-02". -/
def layoutDate : List Chunk :=
  [.stdLongYear, .lit ['-'], .stdZeroMonth, .lit ['-'], .stdZeroDay]

/-- The layout "2006-01-02 15:04". -/
def layoutDateMinute : List Chunk :=
  [.stdLongYear, .lit ['-'], .stdZeroMonth, .lit ['-'], .stdZeroDay, .lit [' '],
   .stdHour, .lit [':'], .stdZeroMinute]

/-- The layout `time.RFC1123Z`, "Mon, 02 Jan 2006 15:04:05 -0700". -/
def RFC1123Z : List Chunk :=
  [.stdWeekDay, .lit [',', ' '], .stdZeroDay, .lit [' '], .stdMonth, .lit [' '],
   .stdLongYear, .lit [' '], .stdHour, .lit [':'], .stdZeroMinute, .lit [':'],
   .stdZeroSecond, .lit [' '], .stdNumTZ]

/-- The zone a value names: none, the letter `Z`, or a numeric offset. -/
inductive ZoneField where
  | absent
  | utc
  | offset (seconds : Int)
  deriving DecidableEq, Repr

/-- The fields `parse` collects. -/
structure Fields where
  year : Int
  month : Int
  day : Int
  hour : Int
  min : Int
  sec : Int
  nsec : Int
  zone : ZoneField
  deriving DecidableEq, Repr

/-- The value of a decimal digit. -/
def digitVal (c : Char) : Int := (c.toNat - 48 : Nat)

/-- Go's `getnum`: one or two digits, exactly two when `fixed`. -/
def getnum (s : List Char) (fixed : Bool) : Option (Int × List Char) :=
  match s with
  | [] => none
  | c₀ :: rest =>
    if !c₀.isDigit then none
    else
      match rest with
      | [] => if fixed then none else some (digitVal c₀, [])
      | c₁ :: rest' =>
        if c₁.isDigit then some (digitVal c₀ * 10 + digitVal c₁, rest')
        else if fixed then none else some (digitVal c₀, rest)

/-- The number a run of digits stands for. -/
def digitsVal (ds : List Char) : Int :=
  ds.foldl (fun acc c => acc * 10 + digitVal c) 0

/-- Go's `cutspace`. -/
def cutspace (s : List Char) : List Char := s.dropWhile (fun c => c == ' ')

/-- The loop of Go's `skip`; `cut` records that the layout character before
was a space, whose whole run of spaces has been dealt with. -/
def skipLoop : Bool → List Char → List Char → Option (List Char)
  | _, value, [] => some value
  | cut, value, p :: pre =>
    if p = ' ' then
      if cut then skipLoop true value pre
      else
        match value with
        | [] => skipLoop true [] pre
        | v :: rest => if v ≠ ' ' then none else skipLoop true (cutspace (v :: rest)) pre
    else
      match value with
      | [] => none
      | v :: rest => if v ≠ p then none else skipLoop false rest pre

/-- Go's `skip`: the layout text `pre` is matched at the head of the value; a
run of spaces in the layout matches any run of spaces, also an empty one at
the end of the value. -/
def skip (value pre : List Char) : Option (List Char) := skipLoop false value pre

/-- Go's `match`: equality of two ASCII letters up to case. -/
def matchFold (c₁ c₂ : Char) : Bool :=
  c₁ == c₂ ||
  (decide (c₁.toNat < 0x80) && c₁.isAlpha && c₂.isAlpha && c₁.toLower == c₂.toLower)

/-- Go's `lookup`: the index of the first name of the table that the value
starts with, up to case, and the rest of the value. -/
def lookupName : List (List Char) → Nat → List Char → Option (Int × List Char)
  | [], _, _ => none
  | v :: tab, i, val =>
    if val.length ≥ v.length ∧ (List.zipWith matchFold (val.take v.length) v).all id then
      some (i, val.drop v.length)
    else lookupName tab (i + 1) val

/-- The table `shortDayNames`. -/
def shortDayNames : List (List Char) :=
  ["Sun".data, "Mon".data, "Tue".data, "Wed".data, "Thu".data, "Fri".data, "Sat".data]

/-- The table `shortMonthNames`. -/
def shortMonthNames : List (List Char) :=
  ["Jan".data, "Feb".data, "Mar".data, "Apr".data, "May".data, "Jun".data,
   "Jul".data, "Aug".data, "Sep".data, "Oct".data, "Nov".data, "Dec".data]

/-- The fractional second that may follow the seconds although the layout has
none: a period or comma and digits, of which nine count. -/
def fracSecond (value : List Char) : Int × List Char :=
  match value with
  | p :: d :: rest =>
    if (p = '.' ∨ p = ',') ∧ d.isDigit = true then
      let ds := (d :: rest).takeWhile Char.isDigit
      let kept := ds.take 9
      (digitsVal kept * 10 ^ (9 - kept.length), (d :: rest).dropWhile Char.isDigit)
    else (0, value)
  | _ => (0, value)

/-- The sign and the hours and minutes of a numeric zone offset, in seconds. -/
def zoneOffset (s h₁ h₂ m₁ m₂ : Char) : Option Int :=
  match getnum [h₁, h₂] true, getnum [m₁, m₂] true with
  | some (hr, _), some (mm, _) =>
    if hr > 24 ∨ mm > 60 then none
    else if s = '+' then some ((hr * 60 + mm) * 60)
    else if s = '-' then some (-((hr * 60 + mm) * 60))
    else none
  | _, _ => none

/-- A numeric zone offset at the head of the value: sign, two digits of hours
and two of minutes, with a colon between them when `colon`. -/
def numTZ (colon : Bool) (value : List Char) : Option (Int × List Char) :=
  match colon, value with
  | true, s :: h₁ :: h₂ :: c :: m₁ :: m₂ :: rest =>
    if c ≠ ':' then none else (zoneOffset s h₁ h₂ m₁ m₂).map (fun off => (off, rest))
  | false, s :: h₁ :: h₂ :: m₁ :: m₂ :: rest =>
    (zoneOffset s h₁ h₂ m₁ m₂).map (fun off => (off, rest))
  | _, _ => none

/-- One element of a layout is read off the head of the value. -/
def parseChunk (c : Chunk) (value : List Char) (f : Fields) : Option (Fields × List Char) :=
  match c with
  | .lit text => (skip value text).map (fun v => (f, v))
  | .stdLongYear =>
    match value with
    | a :: b :: c :: d :: rest =>
      if a.isDigit && b.isDigit && c.isDigit && d.isDigit then
        some ({ f with year := digitsVal [a, b, c, d] }, rest)
      else none
    | _ => none
  | .stdZeroMonth =>
    match getnum value true with
    | some (n, rest) => if n ≤ 0 ∨ 12 < n then none else some ({ f with month := n }, rest)
    | none => none
  | .stdZeroDay =>
    match getnum value true with
    | some (n, rest) => some ({ f with day := n }, rest)
    | none => none
  | .stdHour =>
    match getnum value false with
    | some (n, rest) => if 24 ≤ n then none else some ({ f with hour := n }, rest)
    | none => none
  | .stdZeroMinute =>
    match getnum value true with
    | some (n, rest) => if 60 ≤ n then none else some ({ f with min := n }, rest)
    | none => none
  | .stdZeroSecond =>
    match getnum value true with
    | some (n, rest) =>
      if 60 ≤ n then none
      else some ({ f with sec := n, nsec := (fracSecond rest).1 }, (fracSecond rest).2)
    | none => none
  | .stdISO8601ColonTZ =>
    match value with
    | 'Z' :: rest => some ({ f with zone := .utc }, rest)
    | _ =>
      match numTZ true value with
      | some (off, rest) => some ({ f with zone := .offset off }, rest)
      | none => none
  | .stdNumTZ =>
    match numTZ false value with
    | some (off, rest) => some ({ f with zone := .offset off }, rest)
    | none => none
  | .stdWeekDay =>
    match lookupName shortDayNames 0 value with
    | some (_, rest) => some (f, rest)
    | none => none
  | .stdMonth =>
    match lookupName shortMonthNames 0 value with
    | some (i, rest) => some ({ f with month := i + 1 }, rest)
    | none => none

/-- The loop of Go's `parse` over the elements of the layout; text left over
after the last element is an error. -/
def parseChunks : List Chunk → List Char → Fields → Option Fields
  | [], value, f => if value = [] then some f else none
  | c :: layout, value, f =>
    match parseChunk c value f with
    | some (f', value') => parseChunks layout value' f'
    | none => none

/-- The loop of `parse` without the check at the end of the layout: the fields
read and the text left over. -/
def runChunks : List Chunk → List Char → Fields → Option (Fields × List Char)
  | [], value, f => some (f, value)
  | c :: layout, value, f =>
    match parseChunk c value f with
    | some (f', value') => runChunks layout value' f'
    | none => none

/-- Go's `parse` (behind `time.Parse` and `time.ParseInLocation`) for the four
layouts above: the fields are read, the day is checked against the month, and
the instant is built in UTC, at the offset the value names, or in
`defaultLocation`. `none` stands for any error. -/
def parse (layout : List Chunk) (value : String) (defaultLocation : Location) : Option Time :=
  match parseChunks layout value.data ⟨0, 1, 1, 0, 0, 0, 0, .absent⟩ with
  | none => none
  | some f =>
    if f.day < 1 ∨ f.day > daysIn f.month f.year then none
    else
      match f.zone with
      | .utc => some (Date f.year f.month f.day f.hour f.min f.sec f.nsec UTC)
      | .offset off =>
        some ⟨(Date f.year f.month f.day f.hour f.min f.sec f.nsec UTC).sec - off,
          (Date f.year f.month f.day f.hour f.min f.sec f.nsec UTC).nsec⟩
      | .absent => some (Date f.year f.month f.day f.hour f.min f.sec f.nsec defaultLocation)

/-! ### Quoting (`%q`) -/

/-- A hexadecimal digit, lower case. -/
def hexDigit (n : Nat) : Char :=
  if n < 10 then Char.ofNat (48 + n) else Char.ofNat (87 + n)

/-- The last `k` hexadecimal digits of a number. -/
def hexDigits : Nat → Nat → List Char
  | 0, _ => []
  | k + 1, n => hexDigits k (n / 16) ++ [hexDigit (n % 16)]

/-- Go's `unicode.IsPrint`: decided for ASCII, read off the table `isPrint`
beyond. -/
def isPrintRune (isPrint : Char → Bool) (c : Char) : Bool :=
  if c.toNat < 0x80 then decide (0x20 ≤ c.toNat ∧ c.toNat < 0x7F) else isPrint c

/-- One rune of `strconv.Quote`. -/
def quoteRune (isPrint : Char → Bool) (c : Char) : List Char :=
  let n := c.toNat
  if n = 0x22 ∨ n = 0x5C then [Char.ofNat 0x5C, c]
  else if isPrintRune isPrint c then [c]
  else if n = 0x07 then [Char.ofNat 0x5C, 'a']
  else if n = 0x08 then [Char.ofNat 0x5C, 'b']
  else if n = 0x0C then [Char.ofNat 0x5C, 'f']
  else if n = 0x0A then [Char.ofNat 0x5C, 'n']
  else if n = 0x0D then [Char.ofNat 0x5C, 'r']
  else if n = 0x09 then [Char.ofNat 0x5C, 't']
  else if n = 0x0B then [Char.ofNat 0x5C, 'v']
  else if n < 0x20 ∨ n = 0x7F then Char.ofNat 0x5C :: 'x' :: hexDigits 2 n
  else if n < 0x10000 then Char.ofNat 0x5C :: 'u' :: hexDigits 4 n
  else Char.ofNat 0x5C :: 'U' :: hexDigits 8 n

/-- Go's `strconv.Quote`, which formats `%q`. -/
def quote (isPrint : Char → Bool) (s : String) : String :=
  ⟨Char.ofNat 0x22 ::
    (s.data.foldr (fun c acc => quoteRune isPrint c ++ acc) [Char.ofNat 0x22])⟩

/-! ## The period -/

/-- The function `parseTimeFlexible`; an error carries its message. -/
def parseTimeFlexible (isPrint : Char → Bool) (s : String) (loc : Location)
    (startOfDay : Bool) : Except String Time :=
  let s := trimSpace s
  match parse RFC3339 s UTC with
  | some t => .ok t
  | none =>
    match parse layoutDate s loc with
    | some t =>
      if startOfDay then .ok t
      else .ok (t.Add (23 * 3600000000000 + 59 * 60000000000 + 59 * 1000000000))
    | none =>
      match parse layoutDateMinute s loc with
      | some t => .ok t
      | none =>
        match parse RFC1123Z s loc with
        | some t => .ok t
        | none => .error ("не удалось распарсить " ++ quote isPrint s)

/-- The function `parsePeriod`; `now` is the instant `time.Now()` returns. -/
def parsePeriod (isPrint : Char → Bool) (now : Time) (sinceStr untilStr : String)
    (loc : Location) : Except String (Time × Time) :=
  let sinceResult : Except String Time :=
    if sinceStr = "" then
      .ok ((Date (now.civil loc).year (now.civil loc).month (now.civil loc).day
        0 0 0 0 loc).AddDate loc 0 0 (-30))
    else
      match parseTimeFlexible isPrint sinceStr loc true with
      | .ok t => .ok t
      | .error err => .error ("since: " ++ err)
  match sinceResult with
  | .error e => .error e
  | .ok since =>
    if untilStr = "" then .ok (since, now)
    else
      match parseTimeFlexible isPrint untilStr loc false with
      | .ok u => .ok (since, u)
      | .error err => .error ("until: " ++ err)

/-- The transitions of Europe/Moscow from 2010 on (tz database): summer time
in 2010, UTC+4 from 27 March 2011, UTC+3 from 26 October 2014. The record
agrees with the zone for every instant from 25 October 2009 on. -/
def moscow : Location :=
  ⟨10800, [(1269730800, 14400), (1288479600, 10800), (1301180400, 14400),
           (1414274400, 10800)]⟩

/-- A trimmed string matches none of the four layouts: each of the four
attempts of `parseTimeFlexible` fails. -/
def matchesNoFormat (s : String) (loc : Location) : Prop :=
  parse RFC3339 s UTC = none ∧ parse layoutDate s loc = none ∧
  parse layoutDateMinute s loc = none ∧ parse RFC1123Z s loc = none
/-! # Theorems -/

/-! ## Facts about the map -/

theorem mapGet_eq_none_iff (m : AuthorMap) (k : String) :
    mapGet m k = none ↔ k ∉ mapKeys m := by
  induction m with
  | nil => simp [mapGet, mapKeys]
  | cons p m ih =>
    obtain ⟨k', v⟩ := p
    by_cases h : k' = k
    · simp [mapGet, mapKeys, h]
    · have h' : ¬ k = k' := fun e => h e.symm
      simpa [mapGet, mapKeys, h, h'] using ih

theorem mapGet_append (m₁ m₂ : AuthorMap) (k : String) :
    mapGet (m₁ ++ m₂) k = (mapGet m₁ k).orElse (fun _ => mapGet m₂ k) := by
  induction m₁ with
  | nil => simp [mapGet]
  | cons p m ih =>
    obtain ⟨k', v⟩ := p
    by_cases h : k' = k <;> simp [mapGet, h, ih]

theorem mapKeys_mapUpdate (m : AuthorMap) (k : String) (f : agg → agg) :
    mapKeys (mapUpdate m k f) = mapKeys m := by
  induction m with
  | nil => rfl
  | cons p m ih =>
    obtain ⟨k', v⟩ := p
    by_cases h : k' = k
    · simp [mapUpdate, mapKeys, h]
    · simp only [mapKeys] at ih
      simp [mapUpdate, mapKeys, h, ih]

theorem mapGet_mapUpdate (m : AuthorMap) (k k' : String) (f : agg → agg) :
    mapGet (mapUpdate m k f) k' =
      if k' = k then (mapGet m k').map f else mapGet m k' := by
  induction m with
  | nil => simp [mapGet, mapUpdate]
  | cons p m ih =>
    obtain ⟨k₀, v⟩ := p
    by_cases h : k₀ = k
    · subst h
      by_cases h' : k₀ = k'
      · subst h'; simp [mapGet, mapUpdate]
      · have : ¬ k' = k₀ := fun e => h' e.symm
        simp [mapGet, mapUpdate, h', this]
    · by_cases h' : k₀ = k'
      · subst h'; simp [mapGet, mapUpdate, h]
      · simp [mapGet, mapUpdate, h, h', ih]

theorem mapGet_of_mem (m : AuthorMap) (hnd : (mapKeys m).Nodup) (k : String) (a : agg)
    (h : (k, a) ∈ m) : mapGet m k = some a := by
  induction m with
  | nil => simp at h
  | cons p m ih =>
    obtain ⟨k', v⟩ := p
    simp only [mapKeys, List.map_cons, List.nodup_cons] at hnd
    rcases List.mem_cons.1 h with h | h
    · cases h; simp [mapGet]
    · have hk : k' ≠ k := by
        intro e; subst e
        exact hnd.1 (List.mem_map.2 ⟨(k', a), h, rfl⟩)
      simp only [mapGet, hk, if_false]
      exact ih hnd.2 h

theorem mem_of_mapGet (m : AuthorMap) (k : String) (a : agg)
    (h : mapGet m k = some a) : (k, a) ∈ m := by
  induction m with
  | nil => simp [mapGet] at h
  | cons p m ih =>
    obtain ⟨k', v⟩ := p
    by_cases hk : k' = k
    · subst hk; simp [mapGet] at h; subst h; simp
    · simp only [mapGet, hk, if_false] at h
      exact List.mem_cons_of_mem _ (ih h)

/-! ## Facts about the aggregation pass -/

theorem sumStats_aux (stats : List FileStat) (a d : Int) :
    stats.foldl (fun acc s => (acc.1 + s.Addition, acc.2 + s.Deletion)) (a, d) =
      (a + (stats.map FileStat.Addition).sum, d + (stats.map FileStat.Deletion).sum) := by
  induction stats generalizing a d with
  | nil => simp
  | cons s t ih => simp [List.foldl_cons, ih, add_assoc]

theorem sumStats_eq (stats : List FileStat) :
    sumStats stats =
      ((stats.map FileStat.Addition).sum, (stats.map FileStat.Deletion).sum) := by
  have h := sumStats_aux stats 0 0
  simpa [sumStats] using h

/-- The callback either leaves the state alone or records the commit with the
sums of its file statistics. -/
theorem forEachBody_eq (tbl : Char → Char) (cfg : Config) (st : AggState) (c : Commit) :
    forEachBody tbl cfg st c =
      if counted tbl cfg c then record tbl st c (commitAdded c) (commitDeleted c) else st := by
  unfold forEachBody counted commitAdded commitDeleted
  by_cases h1 : cfg.authorFilter = ""
  · by_cases h2 : (!cfg.includeMerges && decide (c.NumParents > 1)) = true
    · simp [h1, h2]
    · cases hs : c.Stats with
      | none => simp [h1, h2]
      | some stats => simp [h1, h2, sumStats_eq]
  · by_cases h0 : (!contains (toLower tbl c.Author.Name) (toLower tbl cfg.authorFilter) &&
        !contains (toLower tbl c.Author.Email) (toLower tbl cfg.authorFilter)) = true
    · simp [h1, h0]
    · by_cases h2 : (!cfg.includeMerges && decide (c.NumParents > 1)) = true
      · simp [h1, h0, h2]
      · cases hs : c.Stats with
        | none => simp [h1, h0, h2]
        | some stats => simp [h1, h0, h2, sumStats_eq]

theorem aggregate_snoc (tbl : Char → Char) (cfg : Config) (cs : List Commit) (c : Commit) :
    aggregate tbl cfg (cs ++ [c]) = forEachBody tbl cfg (aggregate tbl cfg cs) c := by
  simp [aggregate, List.foldl_append]

theorem mapGet_record (tbl : Char → Char) (st : AggState) (c : Commit) (a d : Int)
    (k : String) :
    mapGet (record tbl st c a d).byAuthor k =
      if k = identityKey tbl c then some (bump c a d (mapGet st.byAuthor k))
      else mapGet st.byAuthor k := by
  unfold record
  simp only [mapGet_mapUpdate]
  by_cases hk : k = identityKey tbl c
  · subst hk
    cases hg : mapGet st.byAuthor (identityKey tbl c) with
    | none => simp [mapGet_append, hg, mapGet, bump]
    | some r => simp [hg, bump]
  · have hk' : ¬ identityKey tbl c = k := fun e => hk e.symm
    cases hg : mapGet st.byAuthor (identityKey tbl c) with
    | none =>
      simp only [hk, if_false, mapGet_append, mapGet, hk']
      cases mapGet st.byAuthor k <;> rfl
    | some r => simp [hk]

theorem mapKeys_record (tbl : Char → Char) (st : AggState) (c : Commit) (a d : Int) :
    mapKeys (record tbl st c a d).byAuthor =
      if identityKey tbl c ∈ mapKeys st.byAuthor then mapKeys st.byAuthor
      else mapKeys st.byAuthor ++ [identityKey tbl c] := by
  unfold record
  simp only [mapKeys_mapUpdate]
  cases hg : mapGet st.byAuthor (identityKey tbl c) with
  | none =>
    have := (mapGet_eq_none_iff _ _).1 hg
    simp only [mapKeys] at this ⊢
    simp [this]
  | some r =>
    have : identityKey tbl c ∈ mapKeys st.byAuthor := by
      by_contra hc
      rw [(mapGet_eq_none_iff _ _).2 hc] at hg
      cases hg
    simp [this]

/-- The keys of the map stay pairwise different. -/
theorem nodup_mapKeys_aggregate (tbl : Char → Char) (cfg : Config) (cs : List Commit) :
    (mapKeys (aggregate tbl cfg cs).byAuthor).Nodup := by
  induction cs using List.reverseRecOn with
  | nil => simp [aggregate, AggState.init, mapKeys]
  | append_singleton cs c ih =>
    rw [aggregate_snoc, forEachBody_eq]
    by_cases hc : counted tbl cfg c = true
    · simp only [hc, if_true, mapKeys_record]
      by_cases hm : identityKey tbl c ∈ mapKeys (aggregate tbl cfg cs).byAuthor
      · simpa [hm] using ih
      · simp only [hm, if_false]
        exact List.Nodup.append ih (List.nodup_singleton _) (by simpa using hm)
    · simpa [hc] using ih

theorem countedWithKey_snoc (tbl : Char → Char) (cfg : Config) (cs : List Commit)
    (c : Commit) (k : String) :
    countedWithKey tbl cfg (cs ++ [c]) k =
      countedWithKey tbl cfg cs k ++
        (if counted tbl cfg c = true ∧ identityKey tbl c = k then [c] else []) := by
  unfold countedWithKey
  by_cases hc : counted tbl cfg c = true
  · by_cases hk : identityKey tbl c = k
    · simp [List.filter_append, hc, hk, List.filter_cons]
    · simp [List.filter_append, hc, hk, List.filter_cons]
  · simp [List.filter_append, hc, List.filter_cons]

/-- The lookup in the aggregate map, for every key. -/
theorem mapGet_aggregate (tbl : Char → Char) (cfg : Config) (cs : List Commit) (k : String) :
    mapGet (aggregate tbl cfg cs).byAuthor k = expectedRecord tbl cfg cs k := by
  induction cs using List.reverseRecOn with
  | nil => simp [aggregate, AggState.init, mapGet, expectedRecord, countedWithKey]
  | append_singleton cs c ih =>
    rw [aggregate_snoc, forEachBody_eq]
    unfold expectedRecord at ih ⊢
    rw [countedWithKey_snoc]
    by_cases hc : counted tbl cfg c = true
    · simp only [hc, if_true, mapGet_record, true_and]
      by_cases hk : k = identityKey tbl c
      · have hk' : identityKey tbl c = k := hk.symm
        simp only [hk, if_true] at ih ⊢
        rw [ih]
        cases hl : countedWithKey tbl cfg cs (identityKey tbl c) with
        | nil => simp [bump]
        | cons c₀ rest =>
          simp only [bump, List.cons_append, List.length_cons, List.length_append,
            List.map_cons, List.map_append, List.sum_cons, List.sum_append,
            List.length_singleton, List.map_nil, List.sum_nil]
          congr 2 <;> ring
      · have hk' : ¬ identityKey tbl c = k := fun e => hk e.symm
        simp only [hk, hk', if_false, List.append_nil]
        exact ih
    · simp only [hc, Bool.false_eq_true, if_false, false_and, List.append_nil]
      exact ih

/-! ## The aggregate map, key by key -/

theorem mem_mapKeys_aggregate (tbl : Char → Char) (cfg : Config) (cs : List Commit)
    (k : String) :
    k ∈ mapKeys (aggregate tbl cfg cs).byAuthor ↔
      ∃ c ∈ cs.filter (counted tbl cfg), identityKey tbl c = k := by
  have h := mapGet_aggregate tbl cfg cs k
  have hn := mapGet_eq_none_iff (aggregate tbl cfg cs).byAuthor k
  constructor
  · intro hk
    have hne : mapGet (aggregate tbl cfg cs).byAuthor k ≠ none := fun e => (hn.1 e) hk
    rw [h] at hne
    unfold expectedRecord at hne
    cases hl : countedWithKey tbl cfg cs k with
    | nil => simp [hl] at hne
    | cons c rest =>
      have hc : c ∈ countedWithKey tbl cfg cs k := by simp [hl]
      unfold countedWithKey at hc
      rw [List.mem_filter] at hc
      exact ⟨c, hc.1, by simpa using hc.2⟩
  · rintro ⟨c, hc, hk⟩
    by_contra hnot
    have hnone := hn.2 hnot
    rw [h] at hnone
    have hmem : c ∈ countedWithKey tbl cfg cs k := by
      unfold countedWithKey
      rw [List.mem_filter]
      exact ⟨hc, by simpa using hk⟩
    unfold expectedRecord at hnone
    cases hl : countedWithKey tbl cfg cs k with
    | nil => simp [hl] at hmem
    | cons c' rest => simp [hl] at hnone

theorem identityKey_spec (tbl : Char → Char) (c : Commit) :
    identityKey tbl c =
      if toLower tbl (trimSpace c.Author.Email) ≠ "" then toLower tbl (trimSpace c.Author.Email)
      else if toLower tbl (trimSpace c.Author.Name) ≠ "" then
        toLower tbl (trimSpace c.Author.Name)
      else "(unknown)" := by
  unfold identityKey
  by_cases h1 : toLower tbl (trimSpace c.Author.Email) = ""
  · by_cases h2 : toLower tbl (trimSpace c.Author.Name) = ""
    · simp [h1, h2]
    · simp [h1, h2]
  · simp [h1]

/-- C1. After the aggregation pass the map has exactly one entry per identity
key occurring among the counted commits (the keys are pairwise different, and a
key is present if and only if some counted commit has it); the key of a commit
is its lower-cased trimmed email if that is non-empty, else its lower-cased
trimmed name if that is non-empty, else "(unknown)"; the entry of a key holds
the number of counted commits with that key and the sums of their per-path
additions and deletions. The emails "A@X.com " and "a@x.com" give the same
key, so two such commits share one aggregate. -/
theorem C1_one_aggregate_per_identity (tbl : Char → Char) (cfg : Config) (cs : List Commit) :
    (mapKeys (aggregate tbl cfg cs).byAuthor).Nodup ∧
    (∀ k, k ∈ mapKeys (aggregate tbl cfg cs).byAuthor ↔
      ∃ c ∈ cs.filter (counted tbl cfg), identityKey tbl c = k) ∧
    (∀ c : Commit, identityKey tbl c =
      if toLower tbl (trimSpace c.Author.Email) ≠ "" then toLower tbl (trimSpace c.Author.Email)
      else if toLower tbl (trimSpace c.Author.Name) ≠ "" then
        toLower tbl (trimSpace c.Author.Name)
      else "(unknown)") ∧
    (∀ k a, (k, a) ∈ (aggregate tbl cfg cs).byAuthor →
      a.Commits = ((countedWithKey tbl cfg cs k).length : Int) ∧
      a.Added = ((countedWithKey tbl cfg cs k).map commitAdded).sum ∧
      a.Deleted = ((countedWithKey tbl cfg cs k).map commitDeleted).sum) ∧
    (∀ (n₁ n₂ : String) (p₁ p₂ : Nat) (s₁ s₂ : Option (List FileStat)),
      identityKey tbl ⟨⟨n₁, "A@X.com "⟩, p₁, s₁⟩ = identityKey tbl ⟨⟨n₂, "a@x.com"⟩, p₂, s₂⟩) := by
  refine ⟨nodup_mapKeys_aggregate tbl cfg cs, mem_mapKeys_aggregate tbl cfg cs,
    identityKey_spec tbl, ?_, ?_⟩
  · intro k a hmem
    have hg := mapGet_of_mem _ (nodup_mapKeys_aggregate tbl cfg cs) k a hmem
    rw [mapGet_aggregate] at hg
    unfold expectedRecord at hg
    cases hl : countedWithKey tbl cfg cs k with
    | nil => simp [hl] at hg
    | cons c rest =>
      simp only [hl, Option.some.injEq] at hg
      subst hg
      exact ⟨rfl, rfl, rfl⟩
  · intro n₁ n₂ p₁ p₂ s₁ s₂
    rfl

/-- C9, as amended. The name and email stored in the aggregate of an identity
key are those of the first counted commit, in traversal order, that maps to
the key: they are set when the record is created and never written again. -/
theorem C9_first_seen_name_and_email (tbl : Char → Char) (cfg : Config) (cs : List Commit)
    (k : String) (a : agg) (h : (k, a) ∈ (aggregate tbl cfg cs).byAuthor) :
    ∃ c rest, countedWithKey tbl cfg cs k = c :: rest ∧
      a.AuthorName = c.Author.Name ∧ a.AuthorEmail = c.Author.Email := by
  have hg := mapGet_of_mem _ (nodup_mapKeys_aggregate tbl cfg cs) k a h
  rw [mapGet_aggregate] at hg
  unfold expectedRecord at hg
  cases hl : countedWithKey tbl cfg cs k with
  | nil => simp [hl] at hg
  | cons c rest =>
    simp only [hl, Option.some.injEq] at hg
    subst hg
    exact ⟨c, rest, rfl, rfl, rfl⟩

/-- C9, witness: two commits of one identity, the record keeps the first
name and email. -/
theorem C9_first_seen_witness :
    ∃ c rest,
      countedWithKey (fun x => x) ⟨"", false⟩
        [⟨⟨"Ann", "A@X.com"⟩, 1, some [⟨2, 0⟩]⟩, ⟨⟨"ann", "a@x.com"⟩, 1, some [⟨1, 0⟩]⟩]
        "a@x.com" = c :: rest ∧
      (⟨"Ann", "A@X.com", 2, 3, 0⟩ : agg).AuthorName = c.Author.Name ∧
      (⟨"Ann", "A@X.com", 2, 3, 0⟩ : agg).AuthorEmail = c.Author.Email :=
  C9_first_seen_name_and_email (fun x => x) ⟨"", false⟩
    [⟨⟨"Ann", "A@X.com"⟩, 1, some [⟨2, 0⟩]⟩, ⟨⟨"ann", "a@x.com"⟩, 1, some [⟨1, 0⟩]⟩]
    "a@x.com" ⟨"Ann", "A@X.com", 2, 3, 0⟩ (by decide)

/-- C9, counterexample. Two counted commits with the key "a@x.com": first
("Ann", "A@X.com"), then ("ann", "a@x.com"). Whatever the case table, the
record of the key holds "Ann" and "A@X.com", the name and email of the first
commit, and these are not the name and email of the last one. -/
theorem C9_last_seen_counterexample :
    (∀ tbl : Char → Char,
      (aggregate tbl ⟨"", false⟩
        [⟨⟨"Ann", "A@X.com"⟩, 1, some [⟨2, 0⟩]⟩,
         ⟨⟨"ann", "a@x.com"⟩, 1, some [⟨1, 0⟩]⟩]).byAuthor =
        [("a@x.com", ⟨"Ann", "A@X.com", 2, 3, 0⟩)]) ∧
    "Ann" ≠ "ann" ∧ "A@X.com" ≠ "a@x.com" :=
  ⟨fun _ => rfl, by decide, by decide⟩

/-! ## Filtering as a refinement -/

theorem counted_eq_passesFilters (tbl : Char → Char) (cfg : Config) (c : Commit) :
    counted tbl cfg c = passesFilters tbl cfg c := by
  unfold counted passesFilters
  by_cases h1 : cfg.authorFilter = ""
  · cases cfg.includeMerges <;> cases c.Stats.isSome <;>
      by_cases h2 : c.NumParents ≤ 1 <;> simp [h1, h2] <;> omega
  · cases contains (toLower tbl c.Author.Name) (toLower tbl cfg.authorFilter) <;>
      cases contains (toLower tbl c.Author.Email) (toLower tbl cfg.authorFilter) <;>
      cases cfg.includeMerges <;> cases c.Stats.isSome <;>
      by_cases h2 : c.NumParents ≤ 1 <;> simp [h1, h2] <;> omega

theorem foldl_forEachBody_filter (tbl : Char → Char) (cfg : Config) (cs : List Commit)
    (st : AggState) :
    cs.foldl (forEachBody tbl cfg) st =
      (cs.filter (counted tbl cfg)).foldl
        (fun s c => record tbl s c (commitAdded c) (commitDeleted c)) st := by
  induction cs generalizing st with
  | nil => rfl
  | cons c cs ih =>
    by_cases hc : counted tbl cfg c = true
    · simp [List.foldl_cons, List.filter_cons, hc, forEachBody_eq, ih]
    · simp [List.foldl_cons, List.filter_cons, hc, forEachBody_eq, ih]

theorem counted_unfiltered (tbl : Char → Char) (c : Commit) :
    counted tbl Config.unfiltered c = c.Stats.isSome := by
  simp [counted, Config.unfiltered]

/-- C4. The aggregates and totals computed under a filter configuration are
those computed without filtering over the subsequence of the commits that
pass the filters of the contract (author substring, merge exclusion,
computable statistics). A commit with two parents leaves the state untouched
when merges are excluded; when merges are included, it is counted as soon as
it passes the author filter and its statistics are computable. -/
theorem C4_filters_select_a_subsequence (tbl : Char → Char) (cfg : Config)
    (cs : List Commit) :
    aggregate tbl cfg cs =
      aggregate tbl Config.unfiltered (cs.filter (passesFilters tbl cfg)) ∧
    (∀ (author : String) (st : AggState) (c : Commit), c.NumParents = 2 →
      forEachBody tbl ⟨author, false⟩ st c = st) ∧
    (∀ (author : String) (st : AggState) (c : Commit), c.NumParents = 2 →
      (author = "" ∨ contains (toLower tbl c.Author.Name) (toLower tbl author) = true ∨
        contains (toLower tbl c.Author.Email) (toLower tbl author) = true) →
      c.Stats.isSome = true →
      forEachBody tbl ⟨author, true⟩ st c =
        record tbl st c (commitAdded c) (commitDeleted c) ∧
      (forEachBody tbl ⟨author, true⟩ st c).totalCommits = st.totalCommits + 1) := by
  refine ⟨?_, ?_, ?_⟩
  · unfold aggregate
    rw [foldl_forEachBody_filter, foldl_forEachBody_filter, List.filter_filter]
    congr 1
    apply List.filter_congr
    intro c _
    rw [counted_unfiltered, counted_eq_passesFilters]
    unfold passesFilters
    cases c.Stats.isSome <;> simp
  · intro author st c hp
    rw [forEachBody_eq]
    simp [counted, hp]
  · intro author st c hp ha hs
    have hc : counted tbl ⟨author, true⟩ c = true := by
      rw [counted_eq_passesFilters]
      unfold passesFilters
      rcases ha with ha | ha | ha <;> simp [ha, hs]
    rw [forEachBody_eq]
    simp [hc, record]

/-- C4, witness: a merge commit among two others, merges excluded. -/
theorem C4_filters_witness :
    aggregate (fun x => x) ⟨"bo", false⟩
        [⟨⟨"Bob", "bob@x.com"⟩, 1, some [⟨10, 2⟩]⟩, ⟨⟨"Bob", "bob@x.com"⟩, 2, some [⟨7, 7⟩]⟩,
         ⟨⟨"Carol", "carol@y.com"⟩, 1, some [⟨5, 0⟩]⟩] =
      aggregate (fun x => x) Config.unfiltered
        [⟨⟨"Bob", "bob@x.com"⟩, 1, some [⟨10, 2⟩]⟩] :=
  (C4_filters_select_a_subsequence (fun x => x) ⟨"bo", false⟩
        [⟨⟨"Bob", "bob@x.com"⟩, 1, some [⟨10, 2⟩]⟩, ⟨⟨"Bob", "bob@x.com"⟩, 2, some [⟨7, 7⟩]⟩,
         ⟨⟨"Carol", "carol@y.com"⟩, 1, some [⟨5, 0⟩]⟩]).1

/-! ## Sorting -/

theorem insertLeft_perm {α : Type} (lt : α → α → Bool) (x : α) (rev : List α) :
    (insertLeft lt x rev).Perm (x :: rev) := by
  induction rev with
  | nil => exact List.Perm.refl _
  | cons y rev ih =>
    unfold insertLeft
    by_cases h : lt x y = true
    · simp only [h, if_true]
      exact (List.Perm.cons y ih).trans (List.Perm.swap x y rev)
    · simp only [h, if_false]
      exact List.Perm.refl _

theorem foldl_insertLeft_perm {α : Type} (lt : α → α → Bool) (l acc : List α) :
    (l.foldl (fun rev x => insertLeft lt x rev) acc).Perm (l ++ acc) := by
  induction l generalizing acc with
  | nil => exact List.Perm.refl _
  | cons x l ih =>
    simp only [List.foldl_cons]
    refine (ih _).trans ?_
    refine (List.Perm.append_left l (insertLeft_perm lt x acc)).trans ?_
    exact List.perm_middle

theorem sortSlice_perm {α : Type} (lt : α → α → Bool) (l : List α) :
    (sortSlice lt l).Perm l := by
  unfold sortSlice
  refine (List.reverse_perm _).trans ?_
  simpa using foldl_insertLeft_perm lt l []

theorem insertLeft_pairwise {α : Type} (lt : α → α → Bool)
    (hasym : ∀ a b, lt a b = true → lt b a = false)
    (htrans : ∀ a b c, lt a b = false → lt b c = false → lt a c = false)
    (x : α) (rev : List α) (h : rev.Pairwise (fun a b => lt a b = false)) :
    (insertLeft lt x rev).Pairwise (fun a b => lt a b = false) := by
  induction rev with
  | nil => simp [insertLeft]
  | cons y rev ih =>
    rw [List.pairwise_cons] at h
    unfold insertLeft
    by_cases hxy : lt x y = true
    · simp only [hxy, if_true]
      rw [List.pairwise_cons]
      refine ⟨?_, ih h.2⟩
      intro z hz
      rcases List.mem_cons.1 ((insertLeft_perm lt x rev).subset hz) with hz | hz
      · subst hz; exact hasym _ _ hxy
      · exact h.1 z hz
    · have hxy' : lt x y = false := by simpa using hxy
      simp only [hxy', Bool.false_eq_true, if_false]
      rw [List.pairwise_cons]
      refine ⟨?_, List.pairwise_cons.2 h⟩
      intro z hz
      rcases List.mem_cons.1 hz with hz | hz
      · subst hz; exact hxy'
      · exact htrans _ _ _ hxy' (h.1 z hz)

theorem foldl_insertLeft_pairwise {α : Type} (lt : α → α → Bool)
    (hasym : ∀ a b, lt a b = true → lt b a = false)
    (htrans : ∀ a b c, lt a b = false → lt b c = false → lt a c = false)
    (l acc : List α) (h : acc.Pairwise (fun a b => lt a b = false)) :
    (l.foldl (fun rev x => insertLeft lt x rev) acc).Pairwise (fun a b => lt a b = false) := by
  induction l generalizing acc with
  | nil => exact h
  | cons x l ih =>
    simp only [List.foldl_cons]
    exact ih _ (insertLeft_pairwise lt hasym htrans x acc h)

/-- Insertion sort returns what `sort.Slice` promises, for a comparator that
is asymmetric and whose negation is transitive. -/
theorem sortSlice_sortedBy {α : Type} (lt : α → α → Bool)
    (hasym : ∀ a b, lt a b = true → lt b a = false)
    (htrans : ∀ a b c, lt a b = false → lt b c = false → lt a c = false)
    (l : List α) : SortedBy lt l (sortSlice lt l) := by
  refine ⟨sortSlice_perm lt l, ?_⟩
  unfold sortSlice
  rw [List.pairwise_reverse]
  exact foldl_insertLeft_pairwise lt hasym htrans l [] List.Pairwise.nil

/-! ## The comparator of `main` -/

theorem ltChars_iff (l₁ l₂ : List Char) : ltChars l₁ l₂ = true ↔ l₁ < l₂ := by
  induction l₁ generalizing l₂ with
  | nil =>
    cases l₂ with
    | nil => simp [ltChars]
    | cons b bs => simp [ltChars, List.nil_lt_cons]
  | cons a as ih =>
    cases l₂ with
    | nil =>
      simp only [ltChars, Bool.false_eq_true, false_iff]
      exact not_lt_of_lt (List.nil_lt_cons a as)
    | cons b bs =>
      unfold ltChars
      by_cases hab : a < b
      · simp only [hab, if_true, true_iff]
        exact List.Lex.rel hab
      · by_cases hba : b < a
        · simp only [hab, hba, if_true, if_false, Bool.false_eq_true, false_iff]
          exact not_lt_of_lt (List.Lex.rel hba)
        · have hEq : a = b := le_antisymm (not_lt.1 hba) (not_lt.1 hab)
          subst hEq
          simp only [hab, if_false, ih]
          exact List.Lex.cons_iff.symm

theorem strLess_iff (s t : String) : strLess s t = true ↔ s < t := by
  rw [String.lt_iff_toList_lt]
  exact ltChars_iff s.data t.data

theorem strLess_eq_false_iff (s t : String) : strLess s t = false ↔ t ≤ s := by
  rw [← not_lt, ← strLess_iff]
  cases strLess s t <;> simp

theorem less_eq_false_iff (tbl : Char → Char) (a b : agg) :
    less tbl b a = false ↔ RankedBefore tbl a b := by
  unfold less RankedBefore
  by_cases hn : b.Net = a.Net
  · by_cases hc : b.Commits = a.Commits
    · simp [hn, hc, strLess_eq_false_iff]
    · have hc' : ¬ a.Commits = b.Commits := fun e => hc e.symm
      simp only [hn, hc, hc', ne_eq, not_true_eq_false, not_false_eq_true, if_true, if_false,
        decide_eq_false_iff_not, gt_iff_lt, lt_self_iff_false, false_or, true_and, false_and,
        or_false, not_lt]
      omega
  · have hn' : ¬ a.Net = b.Net := fun e => hn e.symm
    simp only [hn, hn', ne_eq, not_false_eq_true, if_true, decide_eq_false_iff_not, gt_iff_lt,
      false_and, or_false, not_lt]
    omega

theorem less_asymm (tbl : Char → Char) (a b : agg) (h : less tbl a b = true) :
    less tbl b a = false := by
  rw [less_eq_false_iff]
  unfold less at h
  unfold RankedBefore
  by_cases hn : a.Net = b.Net
  · by_cases hc : a.Commits = b.Commits
    · simp only [hn, hc, ne_eq, not_true_eq_false, if_false, strLess_iff] at h
      exact Or.inr (Or.inr ⟨hn, hc, le_of_lt h⟩)
    · simp only [hn, hc, ne_eq, not_true_eq_false, not_false_eq_true, if_false, if_true,
        decide_eq_true_eq] at h
      exact Or.inr (Or.inl ⟨hn, h⟩)
  · simp only [hn, ne_eq, not_false_eq_true, if_true, decide_eq_true_eq] at h
    exact Or.inl h

theorem rankedBefore_trans (tbl : Char → Char) (a b c : agg)
    (hab : RankedBefore tbl a b) (hbc : RankedBefore tbl b c) : RankedBefore tbl a c := by
  unfold RankedBefore at *
  rcases hab with h | ⟨h1, h2⟩ | ⟨h1, h2, h3⟩ <;>
    rcases hbc with g | ⟨g1, g2⟩ | ⟨g1, g2, g3⟩
  · exact Or.inl (by omega)
  · exact Or.inl (by omega)
  · exact Or.inl (by omega)
  · exact Or.inl (by omega)
  · exact Or.inr (Or.inl ⟨by omega, by omega⟩)
  · exact Or.inr (Or.inl ⟨by omega, by omega⟩)
  · exact Or.inl (by omega)
  · exact Or.inr (Or.inl ⟨by omega, by omega⟩)
  · exact Or.inr (Or.inr ⟨by omega, by omega, le_trans h3 g3⟩)

theorem less_negTrans (tbl : Char → Char) (a b c : agg)
    (hab : less tbl a b = false) (hbc : less tbl b c = false) : less tbl a c = false := by
  rw [less_eq_false_iff] at *
  exact rankedBefore_trans tbl c b a hbc hab

theorem rank_sortedBy (tbl : Char → Char) (order : List agg) :
    SortedBy (less tbl) order (rank tbl order) :=
  sortSlice_sortedBy (less tbl) (less_asymm tbl) (less_negTrans tbl) order

theorem pairwise_get? {α : Type} (R : α → α → Prop) (l : List α) (h : l.Pairwise R)
    (i j : Nat) (a b : α) (hij : i < j) (hi : l.get? i = some a) (hj : l.get? j = some b) :
    R a b := by
  induction l generalizing i j with
  | nil => simp at hi
  | cons x l ih =>
    rw [List.pairwise_cons] at h
    cases j with
    | zero => omega
    | succ j =>
      cases i with
      | zero =>
        simp only [List.get?_cons_zero, Option.some.injEq] at hi
        subst hi
        simp only [List.get?_cons_succ] at hj
        exact h.1 b (List.get?_mem hj)
      | succ i =>
        simp only [List.get?_cons_succ] at hi hj
        exact ih h.2 i j (by omega) hi hj

/-- C5. Whatever the order in which the map is iterated, the ranked list is a
permutation of the records of the map, and of any two positions `i < j` the
record at `i` has the higher net, or the same net and more commits, or the
same net and commits and a lower-cased email that is less than or equal to
the other. The same holds of every list `sort.Slice` may return. -/
theorem C5_ranked_list_is_sorted_permutation (tbl : Char → Char) (m : AuthorMap)
    (order : List agg) (horder : order.Perm (mapValues m)) :
    (rank tbl order).Perm (mapValues m) ∧
    (∀ (i j : Nat) (a b : agg), i < j →
      (rank tbl order).get? i = some a → (rank tbl order).get? j = some b →
      RankedBefore tbl a b) ∧
    (∀ out : List agg, SortedBy (less tbl) order out →
      out.Perm (mapValues m) ∧
      ∀ (i j : Nat) (a b : agg), i < j → out.get? i = some a → out.get? j = some b →
        RankedBefore tbl a b) := by
  have key : ∀ out : List agg, SortedBy (less tbl) order out →
      out.Perm (mapValues m) ∧
      ∀ (i j : Nat) (a b : agg), i < j → out.get? i = some a → out.get? j = some b →
        RankedBefore tbl a b := by
    intro out hs
    refine ⟨hs.1.trans horder, ?_⟩
    intro i j a b hij hi hj
    have hp : out.Pairwise (RankedBefore tbl) :=
      hs.2.imp (fun {x y} hxy => (less_eq_false_iff tbl x y).1 hxy)
    exact pairwise_get? _ out hp i j a b hij hi hj
  exact ⟨(key _ (rank_sortedBy tbl order)).1, (key _ (rank_sortedBy tbl order)).2, key⟩

/-- C5, witness: three records, iterated in an order that is not the ranked
one. -/
theorem C5_ranked_list_witness :
    (rank (fun x => x)
        [⟨"Carol", "carol@y.com", 1, 5, 0⟩, ⟨"Dan", "dan@z.com", 1, 9, 1⟩,
         ⟨"Bob", "bob@x.com", 2, 11, 3⟩]).Perm
      (mapValues [("bob@x.com", ⟨"Bob", "bob@x.com", 2, 11, 3⟩),
        ("carol@y.com", ⟨"Carol", "carol@y.com", 1, 5, 0⟩),
        ("dan@z.com", ⟨"Dan", "dan@z.com", 1, 9, 1⟩)]) :=
  (C5_ranked_list_is_sorted_permutation (fun x => x)
    [("bob@x.com", ⟨"Bob", "bob@x.com", 2, 11, 3⟩),
     ("carol@y.com", ⟨"Carol", "carol@y.com", 1, 5, 0⟩),
     ("dan@z.com", ⟨"Dan", "dan@z.com", 1, 9, 1⟩)]
    [⟨"Carol", "carol@y.com", 1, 5, 0⟩, ⟨"Dan", "dan@z.com", 1, 9, 1⟩,
     ⟨"Bob", "bob@x.com", 2, 11, 3⟩]
    (by decide)).1

/-! ## The end-to-end example and ties in the ranking -/

theorem perm_pair {α : Type} {x y : α} {l : List α} (h : l.Perm [x, y]) :
    l = [x, y] ∨ l = [y, x] := by
  have hl := h.length_eq
  match l, hl with
  | [u, v], _ =>
    have hu : u ∈ [x, y] := h.subset (List.mem_cons_self u _)
    simp only [List.mem_cons, List.mem_singleton, List.not_mem_nil, or_false] at hu
    rcases hu with hu | hu
    · subst hu
      have := (List.perm_cons u).1 h
      rw [List.perm_singleton] at this
      exact Or.inl (by rw [this])
    · subst hu
      have h' : [u, v].Perm [u, x] := h.trans (List.Perm.swap u x [])
      have := (List.perm_cons u).1 h'
      rw [List.perm_singleton] at this
      exact Or.inr (by rw [this])

/-- C3. Three non-merge commits by "bob@x.com" (+10,-2), "bob@x.com" (+1,-1)
and "carol@y.com" (+5,-0), whatever their author names and however the lines
are spread over files, no author filter, merges excluded: the pass yields the
two aggregates bob (2, 11, 3, net 8) and carol (1, 5, 0, net 5) and the totals
(3, 16, 3, 13), and the ranked list is bob then carol for every iteration
order of the map. -/
theorem C3_end_to_end (tbl : Char → Char) (n₁ n₂ n₃ : String) (s₁ s₂ s₃ : List FileStat)
    (h₁ : sumStats s₁ = (10, 2)) (h₂ : sumStats s₂ = (1, 1)) (h₃ : sumStats s₃ = (5, 0)) :
    (aggregate tbl ⟨"", false⟩
        [⟨⟨n₁, "bob@x.com"⟩, 1, some s₁⟩, ⟨⟨n₂, "bob@x.com"⟩, 1, some s₂⟩,
         ⟨⟨n₃, "carol@y.com"⟩, 1, some s₃⟩]) =
      ⟨[("bob@x.com", ⟨n₁, "bob@x.com", 2, 11, 3⟩),
        ("carol@y.com", ⟨n₃, "carol@y.com", 1, 5, 0⟩)], 3, 16, 3⟩ ∧
    (⟨n₁, "bob@x.com", 2, 11, 3⟩ : agg).Net = 8 ∧
    (⟨n₃, "carol@y.com", 1, 5, 0⟩ : agg).Net = 5 ∧
    (aggregate tbl ⟨"", false⟩
        [⟨⟨n₁, "bob@x.com"⟩, 1, some s₁⟩, ⟨⟨n₂, "bob@x.com"⟩, 1, some s₂⟩,
         ⟨⟨n₃, "carol@y.com"⟩, 1, some s₃⟩]).totalAdded -
      (aggregate tbl ⟨"", false⟩
        [⟨⟨n₁, "bob@x.com"⟩, 1, some s₁⟩, ⟨⟨n₂, "bob@x.com"⟩, 1, some s₂⟩,
         ⟨⟨n₃, "carol@y.com"⟩, 1, some s₃⟩]).totalDeleted = 13 ∧
    (∀ order : List agg,
      order.Perm (mapValues [("bob@x.com", ⟨n₁, "bob@x.com", 2, 11, 3⟩),
        ("carol@y.com", ⟨n₃, "carol@y.com", 1, 5, 0⟩)]) →
      rank tbl order = [⟨n₁, "bob@x.com", 2, 11, 3⟩, ⟨n₃, "carol@y.com", 1, 5, 0⟩]) := by
  have hagg : (aggregate tbl ⟨"", false⟩
        [⟨⟨n₁, "bob@x.com"⟩, 1, some s₁⟩, ⟨⟨n₂, "bob@x.com"⟩, 1, some s₂⟩,
         ⟨⟨n₃, "carol@y.com"⟩, 1, some s₃⟩]) =
      ⟨[("bob@x.com", ⟨n₁, "bob@x.com", 2, 11, 3⟩),
        ("carol@y.com", ⟨n₃, "carol@y.com", 1, 5, 0⟩)], 3, 16, 3⟩ := by
    have e₁ : commitAdded ⟨⟨n₁, "bob@x.com"⟩, 1, some s₁⟩ = 10 ∧
        commitDeleted ⟨⟨n₁, "bob@x.com"⟩, 1, some s₁⟩ = 2 := by
      have := sumStats_eq s₁
      rw [h₁] at this
      simp only [Prod.mk.injEq] at this
      exact ⟨this.1.symm, this.2.symm⟩
    have e₂ : commitAdded ⟨⟨n₂, "bob@x.com"⟩, 1, some s₂⟩ = 1 ∧
        commitDeleted ⟨⟨n₂, "bob@x.com"⟩, 1, some s₂⟩ = 1 := by
      have := sumStats_eq s₂
      rw [h₂] at this
      simp only [Prod.mk.injEq] at this
      exact ⟨this.1.symm, this.2.symm⟩
    have e₃ : commitAdded ⟨⟨n₃, "carol@y.com"⟩, 1, some s₃⟩ = 5 ∧
        commitDeleted ⟨⟨n₃, "carol@y.com"⟩, 1, some s₃⟩ = 0 := by
      have := sumStats_eq s₃
      rw [h₃] at this
      simp only [Prod.mk.injEq] at this
      exact ⟨this.1.symm, this.2.symm⟩
    unfold aggregate
    simp only [List.foldl_cons, List.foldl_nil, forEachBody_eq]
    have c₁ : counted tbl ⟨"", false⟩ ⟨⟨n₁, "bob@x.com"⟩, 1, some s₁⟩ = true := rfl
    have c₂ : counted tbl ⟨"", false⟩ ⟨⟨n₂, "bob@x.com"⟩, 1, some s₂⟩ = true := rfl
    have c₃ : counted tbl ⟨"", false⟩ ⟨⟨n₃, "carol@y.com"⟩, 1, some s₃⟩ = true := rfl
    rw [c₁, c₂, c₃, e₁.1, e₁.2, e₂.1, e₂.2, e₃.1, e₃.2]
    rfl
  refine ⟨hagg, rfl, rfl, by rw [hagg]; rfl, ?_⟩
  · intro order horder
    rcases perm_pair horder with h | h <;> subst h <;> rfl

/-- C3, witness: one file per commit. -/
theorem C3_end_to_end_witness :
    (aggregate (fun x => x) ⟨"", false⟩
        [⟨⟨"Bob", "bob@x.com"⟩, 1, some [⟨10, 2⟩]⟩, ⟨⟨"Bob", "bob@x.com"⟩, 1, some [⟨1, 1⟩]⟩,
         ⟨⟨"Carol", "carol@y.com"⟩, 1, some [⟨5, 0⟩]⟩]) =
      ⟨[("bob@x.com", ⟨"Bob", "bob@x.com", 2, 11, 3⟩),
        ("carol@y.com", ⟨"Carol", "carol@y.com", 1, 5, 0⟩)], 3, 16, 3⟩ :=
  (C3_end_to_end (fun x => x) "Bob" "Bob" "Carol" [⟨10, 2⟩] [⟨1, 1⟩] [⟨5, 0⟩]
    (by decide) (by decide) (by decide)).1

/-- C6, counterexample: two authors without email. The commits of "alice" and
"bob" (empty emails, one commit of one added line each) give two
aggregates with different keys; the comparator puts neither before the other,
and the ranked list follows the order in which the map happened to be
iterated. -/
theorem C6_distinct_identities_compare_equal_counterexample :
    (∀ tbl : Char → Char,
      (aggregate tbl ⟨"", false⟩
        [⟨⟨"alice", ""⟩, 1, some [⟨1, 0⟩]⟩, ⟨⟨"bob", ""⟩, 1, some [⟨1, 0⟩]⟩]).byAuthor =
        [("alice", ⟨"alice", "", 1, 1, 0⟩), ("bob", ⟨"bob", "", 1, 1, 0⟩)] ∧
      less tbl ⟨"alice", "", 1, 1, 0⟩ ⟨"bob", "", 1, 1, 0⟩ = false ∧
      less tbl ⟨"bob", "", 1, 1, 0⟩ ⟨"alice", "", 1, 1, 0⟩ = false ∧
      rank tbl [⟨"alice", "", 1, 1, 0⟩, ⟨"bob", "", 1, 1, 0⟩] =
        [⟨"alice", "", 1, 1, 0⟩, ⟨"bob", "", 1, 1, 0⟩] ∧
      rank tbl [⟨"bob", "", 1, 1, 0⟩, ⟨"alice", "", 1, 1, 0⟩] =
        [⟨"bob", "", 1, 1, 0⟩, ⟨"alice", "", 1, 1, 0⟩]) ∧
    (⟨"alice", "", 1, 1, 0⟩ : agg) ≠ ⟨"bob", "", 1, 1, 0⟩ := by
  refine ⟨fun tbl => ?_, by decide⟩
  have hab : less tbl ⟨"alice", "", 1, 1, 0⟩ ⟨"bob", "", 1, 1, 0⟩ = false :=
    (less_eq_false_iff tbl _ _).2 (Or.inr (Or.inr ⟨rfl, rfl, le_refl _⟩))
  have hba : less tbl ⟨"bob", "", 1, 1, 0⟩ ⟨"alice", "", 1, 1, 0⟩ = false :=
    (less_eq_false_iff tbl _ _).2 (Or.inr (Or.inr ⟨rfl, rfl, le_refl _⟩))
  refine ⟨rfl, hab, hba, ?_, ?_⟩
  · simp [rank, sortSlice, insertLeft, hba]
  · simp [rank, sortSlice, insertLeft, hab]

theorem less_both_false_iff (tbl : Char → Char) (a b : agg) :
    (less tbl a b = false ∧ less tbl b a = false) ↔
      (a.Net = b.Net ∧ a.Commits = b.Commits ∧
        toLower tbl a.AuthorEmail = toLower tbl b.AuthorEmail) := by
  rw [less_eq_false_iff, less_eq_false_iff]
  unfold RankedBefore
  constructor
  · rintro ⟨h | ⟨h1, h2⟩ | ⟨h1, h2, h3⟩, g | ⟨g1, g2⟩ | ⟨g1, g2, g3⟩⟩ <;>
      first
        | omega
        | exact ⟨g1, g2, le_antisymm g3 h3⟩
  · rintro ⟨h1, h2, h3⟩
    exact ⟨Or.inr (Or.inr ⟨h1.symm, h2.symm, le_of_eq h3.symm⟩),
      Or.inr (Or.inr ⟨h1, h2, le_of_eq h3⟩)⟩

/-- Sorted permutations of a list whose elements pairwise differ in net,
commits or lower-cased email are all the same list. -/
theorem sortedBy_unique (tbl : Char → Char) (vals o o' out out' : List agg)
    (hdiff : vals.Pairwise (fun a b => a.Net ≠ b.Net ∨ a.Commits ≠ b.Commits ∨
      toLower tbl a.AuthorEmail ≠ toLower tbl b.AuthorEmail))
    (ho : o.Perm vals) (ho' : o'.Perm vals)
    (hs : SortedBy (less tbl) o out) (hs' : SortedBy (less tbl) o' out') : out = out' := by
  have hsymm : Symmetric (fun a b : agg => a.Net ≠ b.Net ∨ a.Commits ≠ b.Commits ∨
      toLower tbl a.AuthorEmail ≠ toLower tbl b.AuthorEmail) := by
    intro a b h
    rcases h with h | h | h
    · exact Or.inl (fun e => h e.symm)
    · exact Or.inr (Or.inl (fun e => h e.symm))
    · exact Or.inr (Or.inr (fun e => h e.symm))
  have hall := hdiff.forall hsymm
  refine List.Perm.eq_of_sorted ?_ hs.2 hs'.2 ((hs.1.trans ho).trans (hs'.1.trans ho').symm)
  intro a b ha hb hab hba
  by_contra hne
  have ha' : a ∈ vals := (hs.1.trans ho).subset ha
  have hb' : b ∈ vals := (hs'.1.trans ho').subset hb
  have hd := hall ha' hb' hne
  have heq := (less_both_false_iff tbl a b).1 ⟨hba, hab⟩
  rcases hd with hd | hd | hd
  · exact hd heq.1
  · exact hd heq.2.1
  · exact hd heq.2.2

theorem toLower_trimSpace (tbl : Char → Char)
    (hws : ∀ c, isSpace (toLowerRune tbl c) = isSpace c) (s : String) :
    toLower tbl (trimSpace s) = trimSpace (toLower tbl s) := by
  have hcomp : (isSpace ∘ toLowerRune tbl) = isSpace := funext hws
  have hmd : ∀ l : List Char, (l.dropWhile isSpace).map (toLowerRune tbl) =
      (l.map (toLowerRune tbl)).dropWhile isSpace := by
    intro l
    rw [List.dropWhile_map, hcomp]
  unfold toLower trimSpace
  congr 1
  show List.map (toLowerRune tbl) ((s.data.dropWhile isSpace).reverse.dropWhile isSpace).reverse
    = (((s.data.map (toLowerRune tbl)).dropWhile isSpace).reverse.dropWhile isSpace).reverse
  rw [List.map_reverse, hmd, List.map_reverse, hmd]

/-- The case table that folds nothing beyond ASCII satisfies the white space
condition. -/
theorem isSpace_toLowerRune_id (c : Char) :
    isSpace (toLowerRune (fun x => x) c) = isSpace c := by
  unfold toLowerRune
  by_cases h₁ : c.toNat < 0x80
  · by_cases h₂ : 0x41 ≤ c.toNat ∧ c.toNat ≤ 0x5A
    · simp only [h₁, h₂, and_self, if_true]
      have hc : Char.ofNat c.toNat = c := Char.ofNat_toNat c
      obtain ⟨h₃, h₄⟩ := h₂
      generalize c.toNat = n at hc h₃ h₄
      subst hc
      interval_cases n <;> rfl
    · simp only [h₁, h₂, if_true, if_false]
  · simp only [h₁, if_false]

theorem toLower_eq_empty (tbl : Char → Char) (s : String) :
    toLower tbl s = "" ↔ s = "" := by
  obtain ⟨l⟩ := s
  cases l with
  | nil => simp [toLower]
  | cons c l =>
    constructor
    · intro h; simp [toLower] at h; exact absurd (congrArg String.data h) (by simp)
    · intro h; exact absurd (congrArg String.data h) (by simp)

/-- The key of an entry of the aggregate map is the identity key of the name
and email stored in it. -/
theorem key_of_entry (tbl : Char → Char) (cfg : Config) (cs : List Commit)
    (k : String) (a : agg) (h : (k, a) ∈ (aggregate tbl cfg cs).byAuthor) :
    k = identityKey tbl ⟨⟨a.AuthorName, a.AuthorEmail⟩, 0, none⟩ := by
  have hg := mapGet_of_mem _ (nodup_mapKeys_aggregate tbl cfg cs) k a h
  rw [mapGet_aggregate] at hg
  unfold expectedRecord at hg
  cases hl : countedWithKey tbl cfg cs k with
  | nil => simp [hl] at hg
  | cons c rest =>
    simp only [hl, Option.some.injEq] at hg
    subst hg
    have hc : c ∈ countedWithKey tbl cfg cs k := by simp [hl]
    unfold countedWithKey at hc
    have hk : identityKey tbl c = k := by simpa using (List.mem_filter.1 hc).2
    rw [← hk]
    rfl

/-- Two entries of the aggregate map with different keys that compare equal
both have an email that is empty after trimming. -/
theorem emails_empty_of_compare_equal (tbl : Char → Char)
    (hws : ∀ c, isSpace (toLowerRune tbl c) = isSpace c) (cfg : Config) (cs : List Commit)
    (k₁ k₂ : String) (a₁ a₂ : agg)
    (h₁ : (k₁, a₁) ∈ (aggregate tbl cfg cs).byAuthor)
    (h₂ : (k₂, a₂) ∈ (aggregate tbl cfg cs).byAuthor) (hk : k₁ ≠ k₂)
    (hab : less tbl a₁ a₂ = false) (hba : less tbl a₂ a₁ = false) :
    trimSpace a₁.AuthorEmail = "" ∧ trimSpace a₂.AuthorEmail = "" := by
  have heq := ((less_both_false_iff tbl a₁ a₂).1 ⟨hab, hba⟩).2.2
  have e : toLower tbl (trimSpace a₁.AuthorEmail) = toLower tbl (trimSpace a₂.AuthorEmail) := by
    rw [toLower_trimSpace tbl hws, toLower_trimSpace tbl hws, heq]
  by_cases hv : toLower tbl (trimSpace a₁.AuthorEmail) = ""
  · exact ⟨(toLower_eq_empty tbl _).1 hv, (toLower_eq_empty tbl _).1 (e ▸ hv)⟩
  · exfalso
    apply hk
    rw [key_of_entry tbl cfg cs k₁ a₁ h₁, key_of_entry tbl cfg cs k₂ a₂ h₂]
    have hv' : ¬ toLower tbl (trimSpace a₂.AuthorEmail) = "" := e ▸ hv
    simp only [identityKey, hv, hv', if_false]
    exact e

/-- C6, as amended. For a case table that leaves white space white space and
maps nothing else to it (as Unicode's does): of two distinct identities of the
aggregate map of which at least one has an author email that is not empty
after trimming, exactly one ranks strictly before the other. Hence, when every
aggregate of the map has such an email, the ranked order is determined by the
map alone: whatever the orders in which the map is iterated and whatever
sorted permutations `sort.Slice` returns, the ranked lists are the same, and
`rank` gives that list. -/
theorem C6_rank_unique_when_emails_present (tbl : Char → Char)
    (hws : ∀ c, isSpace (toLowerRune tbl c) = isSpace c) (cfg : Config) (cs : List Commit) :
    (∀ (k₁ k₂ : String) (a₁ a₂ : agg),
      (k₁, a₁) ∈ (aggregate tbl cfg cs).byAuthor →
      (k₂, a₂) ∈ (aggregate tbl cfg cs).byAuthor → k₁ ≠ k₂ →
      (trimSpace a₁.AuthorEmail ≠ "" ∨ trimSpace a₂.AuthorEmail ≠ "") →
      (less tbl a₁ a₂ = true ∧ less tbl a₂ a₁ = false) ∨
      (less tbl a₂ a₁ = true ∧ less tbl a₁ a₂ = false)) ∧
    ((∀ (k : String) (a : agg), (k, a) ∈ (aggregate tbl cfg cs).byAuthor →
        trimSpace a.AuthorEmail ≠ "") →
      ∀ order₁ order₂ out₁ out₂ : List agg,
        order₁.Perm (mapValues (aggregate tbl cfg cs).byAuthor) →
        order₂.Perm (mapValues (aggregate tbl cfg cs).byAuthor) →
        SortedBy (less tbl) order₁ out₁ → SortedBy (less tbl) order₂ out₂ →
        out₁ = out₂ ∧ rank tbl order₁ = out₁ ∧ rank tbl order₂ = out₁) := by
  have strict : ∀ (k₁ k₂ : String) (a₁ a₂ : agg),
      (k₁, a₁) ∈ (aggregate tbl cfg cs).byAuthor →
      (k₂, a₂) ∈ (aggregate tbl cfg cs).byAuthor → k₁ ≠ k₂ →
      (trimSpace a₁.AuthorEmail ≠ "" ∨ trimSpace a₂.AuthorEmail ≠ "") →
      (less tbl a₁ a₂ = true ∧ less tbl a₂ a₁ = false) ∨
      (less tbl a₂ a₁ = true ∧ less tbl a₁ a₂ = false) := by
    intro k₁ k₂ a₁ a₂ h₁ h₂ hk hne
    cases hab : less tbl a₁ a₂ with
    | true => exact Or.inl ⟨rfl, less_asymm tbl a₁ a₂ hab⟩
    | false =>
      cases hba : less tbl a₂ a₁ with
      | true => exact Or.inr ⟨rfl, rfl⟩
      | false =>
        have := emails_empty_of_compare_equal tbl hws cfg cs k₁ k₂ a₁ a₂ h₁ h₂ hk hab hba
        rcases hne with hne | hne
        · exact absurd this.1 hne
        · exact absurd this.2 hne
  refine ⟨strict, ?_⟩
  intro hall order₁ order₂ out₁ out₂ h₁ h₂ s₁ s₂
  have hkeys : (aggregate tbl cfg cs).byAuthor.Pairwise (fun p q => p.1 ≠ q.1) :=
    List.pairwise_map.1 (nodup_mapKeys_aggregate tbl cfg cs)
  have hdiff : (mapValues (aggregate tbl cfg cs).byAuthor).Pairwise
      (fun a b => a.Net ≠ b.Net ∨ a.Commits ≠ b.Commits ∨
        toLower tbl a.AuthorEmail ≠ toLower tbl b.AuthorEmail) := by
    unfold mapValues
    rw [List.pairwise_map]
    refine hkeys.imp_of_mem ?_
    intro p q hp hq hpq
    obtain ⟨k₁, a₁⟩ := p
    obtain ⟨k₂, a₂⟩ := q
    have hs := strict k₁ k₂ a₁ a₂ hp hq hpq (Or.inl (hall k₁ a₁ hp))
    by_contra hcon
    have heq : a₁.Net = a₂.Net ∧ a₁.Commits = a₂.Commits ∧
        toLower tbl a₁.AuthorEmail = toLower tbl a₂.AuthorEmail := by
      refine ⟨?_, ?_, ?_⟩ <;> by_contra hx <;> exact hcon (by simp [hx])
    have hboth := (less_both_false_iff tbl a₁ a₂).2 heq
    rcases hs with hs | hs
    · rw [hboth.1] at hs; exact absurd hs.1 (by decide)
    · rw [hboth.2] at hs; exact absurd hs.1 (by decide)
  exact ⟨sortedBy_unique tbl _ _ _ _ _ hdiff h₁ h₂ s₁ s₂,
    sortedBy_unique tbl _ _ _ _ _ hdiff h₁ h₁ (rank_sortedBy tbl order₁) s₁,
    sortedBy_unique tbl _ _ _ _ _ hdiff h₂ h₁ (rank_sortedBy tbl order₂) s₁⟩

/-- C6, witness: three identities with emails, two of them with the same net
and commits; the ranked list is the same for two iteration orders. -/
theorem C6_rank_unique_witness :
    rank (fun x => x)
        [⟨"Carol", "carol@y.com", 1, 5, 0⟩, ⟨"Bob", "bob@x.com", 2, 11, 3⟩,
         ⟨"Al", "al@x.com", 1, 5, 0⟩] =
      [⟨"Bob", "bob@x.com", 2, 11, 3⟩, ⟨"Al", "al@x.com", 1, 5, 0⟩,
       ⟨"Carol", "carol@y.com", 1, 5, 0⟩] :=
  ((C6_rank_unique_when_emails_present (fun x => x) isSpace_toLowerRune_id ⟨"", false⟩
      [⟨⟨"Bob", "bob@x.com"⟩, 1, some [⟨10, 2⟩]⟩, ⟨⟨"Carol", "carol@y.com"⟩, 1, some [⟨5, 0⟩]⟩,
       ⟨⟨"Al", "al@x.com"⟩, 1, some [⟨5, 0⟩]⟩, ⟨⟨"Bob", "bob@x.com"⟩, 1, some [⟨1, 1⟩]⟩]).2
    (fun k a h => by
      have e : (aggregate (fun x => x) ⟨"", false⟩
          [⟨⟨"Bob", "bob@x.com"⟩, 1, some [⟨10, 2⟩]⟩,
           ⟨⟨"Carol", "carol@y.com"⟩, 1, some [⟨5, 0⟩]⟩,
           ⟨⟨"Al", "al@x.com"⟩, 1, some [⟨5, 0⟩]⟩,
           ⟨⟨"Bob", "bob@x.com"⟩, 1, some [⟨1, 1⟩]⟩]).byAuthor =
          [("bob@x.com", ⟨"Bob", "bob@x.com", 2, 11, 3⟩),
           ("carol@y.com", ⟨"Carol", "carol@y.com", 1, 5, 0⟩),
           ("al@x.com", ⟨"Al", "al@x.com", 1, 5, 0⟩)] := by rfl
      rw [e] at h
      simp only [List.mem_cons, Prod.mk.injEq, List.mem_singleton, List.not_mem_nil,
        or_false] at h
      rcases h with ⟨_, rfl⟩ | ⟨_, rfl⟩ | ⟨_, rfl⟩ <;> decide)
    [⟨"Carol", "carol@y.com", 1, 5, 0⟩, ⟨"Bob", "bob@x.com", 2, 11, 3⟩,
     ⟨"Al", "al@x.com", 1, 5, 0⟩]
    [⟨"Al", "al@x.com", 1, 5, 0⟩, ⟨"Carol", "carol@y.com", 1, 5, 0⟩,
     ⟨"Bob", "bob@x.com", 2, 11, 3⟩]
    [⟨"Bob", "bob@x.com", 2, 11, 3⟩, ⟨"Al", "al@x.com", 1, 5, 0⟩,
     ⟨"Carol", "carol@y.com", 1, 5, 0⟩]
    [⟨"Bob", "bob@x.com", 2, 11, 3⟩, ⟨"Al", "al@x.com", 1, 5, 0⟩,
     ⟨"Carol", "carol@y.com", 1, 5, 0⟩]
    (by decide) (by decide)
    ⟨by decide, by decide⟩ ⟨by decide, by decide⟩).2.1

/-! ## Totals and the CSV export -/

theorem sum_mapUpdate (g : agg → Int) (f : agg → agg) (m : AuthorMap) (k : String) (r : agg)
    (h : mapGet m k = some r) :
    ((mapValues (mapUpdate m k f)).map g).sum = ((mapValues m).map g).sum + (g (f r) - g r) := by
  induction m with
  | nil => simp [mapGet] at h
  | cons p m ih =>
    obtain ⟨k', v⟩ := p
    by_cases hk : k' = k
    · simp only [mapGet, hk, if_true, Option.some.injEq] at h
      subst h
      simp only [mapUpdate, hk, if_true, mapValues, List.map_cons, List.sum_cons]
      ring
    · simp only [mapGet, hk, if_false] at h
      have := ih h
      simp only [mapValues] at this
      simp only [mapUpdate, hk, if_false, mapValues, List.map_cons, List.sum_cons, this]
      ring

/-- What recording one commit does to a column sum of the map. -/
theorem sum_record (tbl : Char → Char) (g : agg → Int) (delta : Int) (a d : Int)
    (hzero : ∀ n e, g ⟨n, e, 0, 0, 0⟩ = 0)
    (hstep : ∀ r : agg,
      g ⟨r.AuthorName, r.AuthorEmail, r.Commits + 1, r.Added + a, r.Deleted + d⟩ = g r + delta)
    (st : AggState) (c : Commit) :
    ((mapValues (record tbl st c a d).byAuthor).map g).sum =
      ((mapValues st.byAuthor).map g).sum + delta := by
  unfold record
  cases hg : mapGet st.byAuthor (identityKey tbl c) with
  | some r =>
    simp only [hg]
    rw [sum_mapUpdate g _ _ _ r hg, hstep]
    ring
  | none =>
    simp only [hg]
    have hg' : mapGet (st.byAuthor ++ [(identityKey tbl c,
        (⟨c.Author.Name, c.Author.Email, 0, 0, 0⟩ : agg))]) (identityKey tbl c) =
        some ⟨c.Author.Name, c.Author.Email, 0, 0, 0⟩ := by
      simp [mapGet_append, hg, mapGet]
    rw [sum_mapUpdate g _ _ _ _ hg', hstep]
    simp only [mapValues, List.map_append, List.map_cons, List.map_nil, List.sum_append,
      List.sum_cons, List.sum_nil, hzero]
    ring

/-- The totals are the column sums of the map, after any number of commits. -/
theorem totals_eq_sums (tbl : Char → Char) (cfg : Config) (cs : List Commit) :
    (aggregate tbl cfg cs).totalCommits =
      ((mapValues (aggregate tbl cfg cs).byAuthor).map agg.Commits).sum ∧
    (aggregate tbl cfg cs).totalAdded =
      ((mapValues (aggregate tbl cfg cs).byAuthor).map agg.Added).sum ∧
    (aggregate tbl cfg cs).totalDeleted =
      ((mapValues (aggregate tbl cfg cs).byAuthor).map agg.Deleted).sum := by
  induction cs using List.reverseRecOn with
  | nil => simp [aggregate, AggState.init, mapValues]
  | append_singleton cs c ih =>
    rw [aggregate_snoc, forEachBody_eq]
    by_cases hc : counted tbl cfg c = true
    · simp only [hc, if_true]
      rw [sum_record tbl agg.Commits 1 _ _ (fun _ _ => rfl) (fun _ => rfl),
        sum_record tbl agg.Added (commitAdded c) _ _ (fun _ _ => rfl) (fun _ => rfl),
        sum_record tbl agg.Deleted (commitDeleted c) _ _ (fun _ _ => rfl) (fun _ => rfl),
        ← ih.1, ← ih.2.1, ← ih.2.2]
      exact ⟨rfl, rfl, rfl⟩
    · simpa [hc] using ih

theorem sum_net (l : List agg) :
    (l.map agg.Net).sum = (l.map agg.Added).sum - (l.map agg.Deleted).sum := by
  induction l with
  | nil => simp
  | cons a l ih => simp only [List.map_cons, List.sum_cons, ih, agg.Net]; ring

/-! ### Decimal text -/

theorem digit_char (d : Nat) (h : d < 10) :
    (Char.ofNat (48 + d)).isDigit = true ∧ (Char.ofNat (48 + d)).toNat - 48 = d ∧
    Char.ofNat (48 + d) ≠ '-' := by
  interval_cases d <;> decide

theorem parseNat_fmtNat (n : Nat) : parseNat (fmtNat n) = some n := by
  unfold fmtNat
  by_cases h0 : n = 0
  · subst h0; decide
  · simp only [h0, if_false]
    have hlt : ∀ d ∈ Nat.digits 10 n, d < 10 := fun d hd => Nat.digits_lt_base (by norm_num) hd
    have hne : Nat.digits 10 n ≠ [] := by
      simpa [Nat.digits_eq_nil_iff_eq_zero] using h0
    unfold parseNat
    have h1 : ((Nat.digits 10 n).reverse.map (fun d => Char.ofNat (48 + d))) ≠ [] := by
      simpa using hne
    have h2 : ((Nat.digits 10 n).reverse.map (fun d => Char.ofNat (48 + d))).all Char.isDigit
        = true := by
      rw [List.all_eq_true]
      intro c hc
      rw [List.mem_map] at hc
      obtain ⟨d, hd, rfl⟩ := hc
      exact (digit_char d (hlt d (List.mem_reverse.1 hd))).1
    have h3 : (((Nat.digits 10 n).reverse.map (fun d => Char.ofNat (48 + d))).reverse.map
        (fun c => c.toNat - 48)) = Nat.digits 10 n := by
      rw [← List.map_reverse, List.reverse_reverse, List.map_map]
      conv_rhs => rw [← List.map_id (Nat.digits 10 n)]
      apply List.map_congr_left
      intro d hd
      exact (digit_char d (hlt d hd)).2.1
    simp only [h1, if_false, h2, if_true, h3, Nat.ofDigits_digits]

theorem fmtNat_head_ne_minus (n : Nat) : ∀ cs, fmtNat n ≠ '-' :: cs := by
  intro cs h
  unfold fmtNat at h
  by_cases h0 : n = 0
  · simp [h0] at h
  · simp only [h0, if_false] at h
    have hmem : '-' ∈ (Nat.digits 10 n).reverse.map (fun d => Char.ofNat (48 + d)) := by
      rw [h]; exact List.mem_cons_self _ _
    rw [List.mem_map] at hmem
    obtain ⟨d, hd, he⟩ := hmem
    have hlt : d < 10 := Nat.digits_lt_base (by norm_num) (List.mem_reverse.1 hd)
    exact (digit_char d hlt).2.2 he

/-- Reading back what `%d` printed gives the number. -/
theorem parseInt_fmtInt (i : Int) : parseInt (fmtInt i) = some i := by
  unfold fmtInt
  by_cases hneg : i < 0
  · simp only [hneg, if_true, parseInt, parseNat_fmtNat, Option.some_bind, Option.some.injEq]
    omega
  · simp only [hneg, if_false, parseInt]
    have hne := fmtNat_head_ne_minus i.natAbs
    have hp := parseNat_fmtNat i.natAbs
    cases hf : fmtNat i.natAbs with
    | nil => rw [hf] at hp; simp [parseNat] at hp
    | cons c cs =>
      by_cases hc : c = '-'
      · subst hc; exact absurd hf (hne cs)
      · rw [hf] at hp
        have : (match c :: cs with
            | '-' :: cs => (parseNat cs).bind (fun n => some (- (n : Int)))
            | cs => (parseNat cs).bind (fun n => some (n : Int))) =
            (parseNat (c :: cs)).bind (fun n => some (n : Int)) := by
          split
          · rename_i heq
            simp only [List.cons.injEq] at heq
            exact absurd heq.1 hc
          · rfl
        rw [this, hp]
        simp only [Option.some_bind, Option.some.injEq]
        omega

theorem authorRows_writeCSV (rows : List agg) (tc ta td : Int) :
    authorRows (writeCSV rows tc ta td) =
      rows.map (fun a => [a.AuthorName, a.AuthorEmail, fmtInt a.Commits, fmtInt a.Added,
        fmtInt a.Deleted, fmtInt a.Net]) := by
  simp [authorRows, writeCSV, List.dropLast_concat]

theorem getLast?_writeCSV (rows : List agg) (tc ta td : Int) :
    (writeCSV rows tc ta td).getLast? =
      some ["TOTAL", "", fmtInt tc, fmtInt ta, fmtInt td, fmtInt (ta - td)] := by
  unfold writeCSV
  rw [← List.cons_append, List.getLast?_append]
  rfl

theorem resum_rows (rows : List agg) :
    resum (rows.map (fun a => [a.AuthorName, a.AuthorEmail, fmtInt a.Commits, fmtInt a.Added,
        fmtInt a.Deleted, fmtInt a.Net])) 2 = some (rows.map agg.Commits).sum ∧
    resum (rows.map (fun a => [a.AuthorName, a.AuthorEmail, fmtInt a.Commits, fmtInt a.Added,
        fmtInt a.Deleted, fmtInt a.Net])) 3 = some (rows.map agg.Added).sum ∧
    resum (rows.map (fun a => [a.AuthorName, a.AuthorEmail, fmtInt a.Commits, fmtInt a.Added,
        fmtInt a.Deleted, fmtInt a.Net])) 4 = some (rows.map agg.Deleted).sum ∧
    resum (rows.map (fun a => [a.AuthorName, a.AuthorEmail, fmtInt a.Commits, fmtInt a.Added,
        fmtInt a.Deleted, fmtInt a.Net])) 5 = some (rows.map agg.Net).sum := by
  induction rows with
  | nil => exact ⟨rfl, rfl, rfl, rfl⟩
  | cons a rows ih =>
    obtain ⟨h2, h3, h4, h5⟩ := ih
    simp only [List.map_cons, resum, h2, h3, h4, h5, List.get?, Option.some_bind,
      parseInt_fmtInt, List.sum_cons, and_self]

/-- C2. After the aggregation pass the totals are the column sums over the
aggregates: `totalCommits`, `totalAdded` and `totalDeleted` are the sums of
`Commits`, `Added` and `Deleted`, and `totalAdded - totalDeleted` is the sum of
`Net()`. Hence, for every iteration order of the map, the commits, added,
deleted and net fields of the author rows `writeCSV` emits, read back and
summed, are the fields of the `TOTAL` row it emits last. -/
theorem C2_totals_are_column_sums (tbl : Char → Char) (cfg : Config) (cs : List Commit) :
    (aggregate tbl cfg cs).totalCommits =
      ((mapValues (aggregate tbl cfg cs).byAuthor).map agg.Commits).sum ∧
    (aggregate tbl cfg cs).totalAdded =
      ((mapValues (aggregate tbl cfg cs).byAuthor).map agg.Added).sum ∧
    (aggregate tbl cfg cs).totalDeleted =
      ((mapValues (aggregate tbl cfg cs).byAuthor).map agg.Deleted).sum ∧
    (aggregate tbl cfg cs).totalAdded - (aggregate tbl cfg cs).totalDeleted =
      ((mapValues (aggregate tbl cfg cs).byAuthor).map agg.Net).sum ∧
    (∀ order : List agg, order.Perm (mapValues (aggregate tbl cfg cs).byAuthor) →
      ∃ commits added deleted net : Int,
        resum (authorRows (writeCSV (rank tbl order) (aggregate tbl cfg cs).totalCommits
          (aggregate tbl cfg cs).totalAdded (aggregate tbl cfg cs).totalDeleted)) 2
          = some commits ∧
        resum (authorRows (writeCSV (rank tbl order) (aggregate tbl cfg cs).totalCommits
          (aggregate tbl cfg cs).totalAdded (aggregate tbl cfg cs).totalDeleted)) 3
          = some added ∧
        resum (authorRows (writeCSV (rank tbl order) (aggregate tbl cfg cs).totalCommits
          (aggregate tbl cfg cs).totalAdded (aggregate tbl cfg cs).totalDeleted)) 4
          = some deleted ∧
        resum (authorRows (writeCSV (rank tbl order) (aggregate tbl cfg cs).totalCommits
          (aggregate tbl cfg cs).totalAdded (aggregate tbl cfg cs).totalDeleted)) 5
          = some net ∧
        (writeCSV (rank tbl order) (aggregate tbl cfg cs).totalCommits
          (aggregate tbl cfg cs).totalAdded (aggregate tbl cfg cs).totalDeleted).getLast? =
          some ["TOTAL", "", fmtInt commits, fmtInt added, fmtInt deleted, fmtInt net]) := by
  obtain ⟨hc, ha, hd⟩ := totals_eq_sums tbl cfg cs
  have hn : (aggregate tbl cfg cs).totalAdded - (aggregate tbl cfg cs).totalDeleted =
      ((mapValues (aggregate tbl cfg cs).byAuthor).map agg.Net).sum := by
    rw [sum_net, ← ha, ← hd]
  refine ⟨hc, ha, hd, hn, ?_⟩
  intro order horder
  have hperm : (rank tbl order).Perm (mapValues (aggregate tbl cfg cs).byAuthor) :=
    (sortSlice_perm (less tbl) order).trans horder
  obtain ⟨r2, r3, r4, r5⟩ := resum_rows (rank tbl order)
  refine ⟨((rank tbl order).map agg.Commits).sum, ((rank tbl order).map agg.Added).sum,
    ((rank tbl order).map agg.Deleted).sum, ((rank tbl order).map agg.Net).sum,
    ?_, ?_, ?_, ?_, ?_⟩
  · rw [authorRows_writeCSV]; exact r2
  · rw [authorRows_writeCSV]; exact r3
  · rw [authorRows_writeCSV]; exact r4
  · rw [authorRows_writeCSV]; exact r5
  · rw [getLast?_writeCSV, (hperm.map agg.Commits).sum_eq, (hperm.map agg.Added).sum_eq,
      (hperm.map agg.Deleted).sum_eq, (hperm.map agg.Net).sum_eq, ← hc, ← ha, ← hd, ← hn]

/-! ## Row rendering -/

/-- C8, evaluated at a Cyrillic name. "Пётр Ильич Чайковский" has 21
characters, which is at most 28, and 40 bytes. The row does not show it
unchanged: it shows the first 25 bytes and "...", and since byte 25 is the
first half of a two-byte character the result is not well-formed UTF-8. -/
theorem C8_truncation_counts_bytes :
    ("Пётр Ильич Чайковский".length = 21 ∧
     (utf8Bytes "Пётр Ильич Чайковский").length = 40) ∧
    displayName ⟨"Пётр Ильич Чайковский", "p@x.com", 1, 1, 0⟩ =
      [208, 159, 209, 145, 209, 130, 209, 128, 32, 208, 152, 208, 187, 209, 140, 208, 184,
       209, 135, 32, 208, 167, 208, 176, 208, 46, 46, 46] ∧
    displayName ⟨"Пётр Ильич Чайковский", "p@x.com", 1, 1, 0⟩ ≠
      utf8Bytes "Пётр Ильич Чайковский" ∧
    utf8Valid (displayName ⟨"Пётр Ильич Чайковский", "p@x.com", 1, 1, 0⟩) = false := by
  refine ⟨⟨by rfl, by rfl⟩, by rfl, ?_, by rfl⟩
  intro h
  have hl := congrArg List.length h
  have h1 : (displayName ⟨"Пётр Ильич Чайковский", "p@x.com", 1, 1, 0⟩).length = 28 := by rfl
  have h2 : (utf8Bytes "Пётр Ильич Чайковский").length = 40 := by rfl
  omega

/-! ## The period -/

theorem parseChunks_append (l₁ l₂ : List Chunk) (value : List Char) (f : Fields) :
    parseChunks (l₁ ++ l₂) value f =
      match runChunks l₁ value f with
      | some (f', value') => parseChunks l₂ value' f'
      | none => none := by
  induction l₁ generalizing value f with
  | nil => rfl
  | cons c l₁ ih =>
    simp only [List.cons_append, parseChunks, runChunks]
    cases parseChunk c value f with
    | none => rfl
    | some p => exact ih p.2 p.1

theorem runChunks_of_parseChunks (l : List Chunk) (value : List Char) (f f' : Fields)
    (h : parseChunks l value f = some f') : runChunks l value f = some (f', []) := by
  induction l generalizing value f with
  | nil =>
    simp only [parseChunks] at h
    by_cases hv : value = []
    · subst hv
      simp only [if_true, Option.some.injEq] at h
      subst h
      rfl
    · simp [hv] at h
  | cons c l ih =>
    simp only [parseChunks, runChunks] at h ⊢
    cases hp : parseChunk c value f with
    | none => simp [hp] at h
    | some p =>
      simp only [hp] at h
      exact ih p.2 p.1 h

/-- A value that matches the layout "2006-01-02" does not match RFC 3339: after
the day the value is at its end, where RFC 3339 wants a `T`. -/
theorem parse_RFC3339_none_of_date (s : String) (loc : Location) (t : Time)
    (h : parse layoutDate s loc = some t) : parse RFC3339 s UTC = none := by
  unfold parse at h ⊢
  cases hp : parseChunks layoutDate s.data ⟨0, 1, 1, 0, 0, 0, 0, .absent⟩ with
  | none => simp [hp] at h
  | some f =>
    have hr := runChunks_of_parseChunks _ _ _ _ hp
    have hsplit : RFC3339 = layoutDate ++
        [.lit ['T'], .stdHour, .lit [':'], .stdZeroMinute, .lit [':'], .stdZeroSecond,
         .stdISO8601ColonTZ] := rfl
    rw [hsplit, parseChunks_append, hr]
    rfl

/-- For a value that matches the layout "2006-01-02", the start bound is the
instant `time.ParseInLocation` returns and the end bound is that instant plus
23h59m59s. -/
theorem parseTimeFlexible_date (isPrint : Char → Bool) (s : String) (loc : Location)
    (t : Time) (h : parse layoutDate (trimSpace s) loc = some t) :
    parseTimeFlexible isPrint s loc true = .ok t ∧
    parseTimeFlexible isPrint s loc false = .ok (t.Add 86399000000000) := by
  have h0 := parse_RFC3339_none_of_date (trimSpace s) loc t h
  constructor
  · simp only [parseTimeFlexible, h0, h, if_true]
  · simp only [parseTimeFlexible, h0, h]
    rfl

set_option maxRecDepth 8192 in
/-- C7, evaluated on days on which the offset of Europe/Moscow changes. As
the end bound, "2014-10-26" gives 22:59:59 of that day and "2010-03-28" gives
00:59:59 of the next day, not 23:59:59 of the day: for every calendar date the
end bound is the start bound plus 23h59m59s of elapsed time. As the start
bound both dates give 00:00:00, and "2024-01-15" gives 00:00:00 and 23:59:59
of that day. -/
theorem C7_end_of_day_on_transition_days (isPrint : Char → Bool) :
    (parseTimeFlexible isPrint "2014-10-26" moscow false).map (fun t => t.civil moscow) =
      .ok ⟨2014, 10, 26, 22, 59, 59⟩ ∧
    (parseTimeFlexible isPrint "2010-03-28" moscow false).map (fun t => t.civil moscow) =
      .ok ⟨2010, 3, 29, 0, 59, 59⟩ ∧
    (parseTimeFlexible isPrint "2014-10-26" moscow true).map (fun t => t.civil moscow) =
      .ok ⟨2014, 10, 26, 0, 0, 0⟩ ∧
    (parseTimeFlexible isPrint "2010-03-28" moscow true).map (fun t => t.civil moscow) =
      .ok ⟨2010, 3, 28, 0, 0, 0⟩ ∧
    (parseTimeFlexible isPrint "2024-01-15" moscow true).map (fun t => t.civil moscow) =
      .ok ⟨2024, 1, 15, 0, 0, 0⟩ ∧
    (parseTimeFlexible isPrint "2024-01-15" moscow false).map (fun t => t.civil moscow) =
      .ok ⟨2024, 1, 15, 23, 59, 59⟩ ∧
    (∀ (s : String) (loc : Location) (t : Time),
      parse layoutDate (trimSpace s) loc = some t →
      parseTimeFlexible isPrint s loc true = .ok t ∧
      parseTimeFlexible isPrint s loc false = .ok (t.Add 86399000000000)) := by
  refine ⟨rfl, rfl, rfl, rfl, rfl, rfl, parseTimeFlexible_date isPrint⟩

theorem parseTimeFlexible_error (isPrint : Char → Bool) (s : String) (loc : Location)
    (startOfDay : Bool) (h : matchesNoFormat (trimSpace s) loc) :
    parseTimeFlexible isPrint s loc startOfDay =
      .error ("не удалось распарсить " ++ quote isPrint (trimSpace s)) := by
  obtain ⟨h1, h2, h3, h4⟩ := h
  simp only [parseTimeFlexible, h1, h2, h3, h4]

theorem parseTimeFlexible_ok (isPrint : Char → Bool) (s : String) (loc : Location)
    (startOfDay : Bool) (h : ¬ matchesNoFormat (trimSpace s) loc) :
    ∃ t, parseTimeFlexible isPrint s loc startOfDay = .ok t := by
  unfold matchesNoFormat at h
  unfold parseTimeFlexible
  simp only []
  cases h1 : parse RFC3339 (trimSpace s) UTC with
  | some t => exact ⟨t, rfl⟩
  | none =>
    cases h2 : parse layoutDate (trimSpace s) loc with
    | some t => cases startOfDay <;> exact ⟨_, rfl⟩
    | none =>
      cases h3 : parse layoutDateMinute (trimSpace s) loc with
      | some t => exact ⟨t, rfl⟩
      | none =>
        cases h4 : parse RFC1123Z (trimSpace s) loc with
        | some t => exact ⟨t, rfl⟩
        | none => exact absurd ⟨h1, h2, h3, h4⟩ h

/-- C10, as amended. A non-empty `since` (respectively `until`, when `since`
is empty or parses) whose trimmed text matches none of the four layouts makes
`parsePeriod` return an error whose message is the name of the field, a colon,
"не удалось распарсить" and the trimmed text in Go's quoted form (`%q`); when
each string is empty or matches a layout, `parsePeriod` returns no error. -/
theorem C10_parse_error_names_field_and_quoted_text (isPrint : Char → Bool) (now : Time)
    (sinceStr untilStr : String) (loc : Location) :
    (sinceStr ≠ "" → matchesNoFormat (trimSpace sinceStr) loc →
      parsePeriod isPrint now sinceStr untilStr loc =
        .error ("since: " ++ ("не удалось распарсить " ++ quote isPrint (trimSpace sinceStr)))) ∧
    (untilStr ≠ "" → (sinceStr = "" ∨ ¬ matchesNoFormat (trimSpace sinceStr) loc) →
      matchesNoFormat (trimSpace untilStr) loc →
      parsePeriod isPrint now sinceStr untilStr loc =
        .error ("until: " ++ ("не удалось распарсить " ++ quote isPrint (trimSpace untilStr)))) ∧
    ((sinceStr = "" ∨ ¬ matchesNoFormat (trimSpace sinceStr) loc) →
      (untilStr = "" ∨ ¬ matchesNoFormat (trimSpace untilStr) loc) →
      ∃ t u, parsePeriod isPrint now sinceStr untilStr loc = .ok (t, u)) := by
  refine ⟨?_, ?_, ?_⟩
  · intro hne hs
    simp only [parsePeriod, hne, if_false, parseTimeFlexible_error isPrint sinceStr loc true hs]
  · intro hne hs hu
    have hU := parseTimeFlexible_error isPrint untilStr loc false hu
    rcases hs with hs | hs
    · simp only [parsePeriod, hs, if_true, hne, if_false, hU]
    · obtain ⟨t, ht⟩ := parseTimeFlexible_ok isPrint sinceStr loc true hs
      have hsne : sinceStr ≠ "" := by
        intro e; subst e
        exact hs ⟨rfl, rfl, rfl, rfl⟩
      simp only [parsePeriod, hsne, if_false, ht, hne, hU]
  · intro hs hu
    have hS : ∃ t, (if sinceStr = "" then
          (Except.ok ((Date (now.civil loc).year (now.civil loc).month (now.civil loc).day
            0 0 0 0 loc).AddDate loc 0 0 (-30)) : Except String Time)
        else
          match parseTimeFlexible isPrint sinceStr loc true with
          | .ok t => .ok t
          | .error err => .error ("since: " ++ err)) = .ok t := by
      by_cases he : sinceStr = ""
      · exact ⟨_, if_pos he⟩
      · rcases hs with hs | hs
        · exact absurd hs he
        · obtain ⟨t, ht⟩ := parseTimeFlexible_ok isPrint sinceStr loc true hs
          exact ⟨t, by simp only [he, if_false, ht]⟩
    obtain ⟨t, ht⟩ := hS
    by_cases hue : untilStr = ""
    · exact ⟨t, now, by simp only [parsePeriod, ht, hue, if_true]⟩
    · rcases hu with hu | hu
      · exact absurd hu hue
      · obtain ⟨u, hu'⟩ := parseTimeFlexible_ok isPrint untilStr loc false hu
        exact ⟨t, u, by simp only [parsePeriod, ht, hue, if_false, hu']⟩

/-- C10, witness: `since` is a calendar date and `until` is no date at all. -/
theorem C10_parse_error_witness :
    parsePeriod (fun _ => true) ⟨0, 0⟩ "2024-01-15" "soon" moscow =
      .error ("until: " ++ ("не удалось распарсить " ++ quote (fun _ => true) (trimSpace "soon"))) :=
  (C10_parse_error_names_field_and_quoted_text (fun _ => true) ⟨0, 0⟩ "2024-01-15" "soon"
    moscow).2.1 (by decide)
    (Or.inr (fun h => by
      have e : parse layoutDate (trimSpace "2024-01-15") moscow = some ⟨1705266000, 0⟩ := rfl
      rw [h.2.1] at e
      cases e))
    ⟨rfl, rfl, rfl, rfl⟩

/-- C10, counterexample. The string " x " (with a blank on either side) is
not empty and matches none of the four layouts; `parsePeriod` returns the
error "since: не удалось распарсить" followed by the quoted trimmed text "x",
and that message does not contain the string as it was passed in. -/
theorem C10_raw_string_counterexample :
    (∀ (isPrint : Char → Bool) (now : Time) (loc : Location),
      matchesNoFormat (trimSpace " x ") loc ∧
      parsePeriod isPrint now " x " "" loc =
        .error ("since: не удалось распарсить " ++ ⟨[Char.ofNat 0x22, 'x', Char.ofNat 0x22]⟩)) ∧
    contains ("since: не удалось распарсить " ++ ⟨[Char.ofNat 0x22, 'x', Char.ofNat 0x22]⟩)
      " x " = false :=
  ⟨fun _ _ _ => ⟨⟨rfl, rfl, rfl, rfl⟩, rfl⟩, by decide⟩

end GitFame
